import Mathlib

/-!
Verification development for the mem-os repository (scripts/recall.py and
scripts/apply_engine.py). Text is modeled as `List Char`, file contents as
line lists, rational numbers stand in for Python floats (the scored
quantities are products/sums of decimal constants, so exact arithmetic is
faithful except at float rounding ulps, which no stated property depends
on), and the filesystem as an association list from paths to contents.
-/

namespace MemOS

/-! ## Tokenizer and stemmer (scripts/recall.py, lines 88-181) -/

/-- Characters matched by the token regex `[a-z0-9_]+` in `tokenize`. -/
def isTokChar (c : Char) : Bool :=
  (97 ≤ c.toNat && c.toNat ≤ 122) || (48 ≤ c.toNat && c.toNat ≤ 57) || c.toNat == 95

/-- ASCII lowercasing, modelling Python `str.lower()` on the ASCII inputs the
claims range over. -/
def lowerChar (c : Char) : Char :=
  if 65 ≤ c.toNat ∧ c.toNat ≤ 90 then Char.ofNat (c.toNat + 32) else c

/-- Worker for `splitRuns`: accumulates the current (reversed) run of token
characters and emits it when a non-token character or the end is reached.
This is `re.findall(r"[a-z0-9_]+", text)`: the list of maximal runs of
token characters. -/
def splitRunsGo : List Char → List Char → List (List Char)
  | [], acc => if acc.isEmpty then [] else [acc.reverse]
  | c :: cs, acc =>
    if isTokChar c then splitRunsGo cs (c :: acc)
    else if acc.isEmpty then splitRunsGo cs acc
    else acc.reverse :: splitRunsGo cs []

/-- Maximal runs of `[a-z0-9_]` characters, in order. -/
def splitRuns (l : List Char) : List (List Char) :=
  splitRunsGo l []

/-- The stopword list `_STOPWORDS` of recall.py. -/
def STOPWORDS : List (List Char) :=
  ["a", "an", "the", "is", "are", "was", "were", "be", "been", "being",
   "have", "has", "had", "do", "does", "did", "will", "would", "shall",
   "should", "may", "might", "can", "could", "must", "and", "but", "or",
   "nor", "not", "so", "yet", "for", "of", "to", "in", "on", "at", "by",
   "with", "from", "as", "into", "about", "between", "through", "during",
   "before", "after", "above", "below", "up", "down", "out", "off", "over",
   "under", "again", "further", "then", "once", "here", "there", "when",
   "where", "why", "how", "all", "each", "every", "both", "few", "more",
   "most", "other", "some", "such", "no", "only", "own", "same", "than",
   "too", "very", "just", "because", "if", "while", "that", "this",
   "it", "its", "we", "they", "them", "their", "he", "she", "his", "her"
  ].map String.data

/-- Membership in the stopword set. -/
def isStopword (w : List Char) : Bool :=
  STOPWORDS.any (fun s => s == w)

/-- Terminal-e restoration after `-ing`/`-ed` removal: Python
`if word.endswith(("at", "iz", "bl")): word += "e"`. -/
def restoreE (v : List Char) : List Char :=
  if "at".data.isSuffixOf v || "iz".data.isSuffixOf v || "bl".data.isSuffixOf v
  then v ++ ['e'] else v

/-- The action a stemmer rule performs on the word (Python right-hand sides
`word[:-k]`, `word[:-k] + suf`, keep as-is, and drop-then-restore-e). -/
inductive StemAct
  | drop (k : Nat)
  | rep (k : Nat) (suf : List Char)
  | keep
  | restore (k : Nat)

/-- One `elif word.endswith(suf) [and len(word) > minLen] [and not
word.endswith(notSuf)]` branch of `_stem`: required suffix, minimum length
(0 when the branch has no length guard), optional forbidden suffix, action. -/
structure StemRule where
  suf : List Char
  minLen : Nat
  notSuf : Option (List Char)
  act : StemAct

/-- The branch table of `_stem` in source order; the first matching rule is
applied (the Python `elif` chain). -/
def STEM_RULES : List StemRule :=
  [⟨"ies".data, 4, none, .rep 3 ['y']⟩,
   ⟨"sses".data, 0, none, .drop 2⟩,
   ⟨"ness".data, 0, none, .drop 4⟩,
   ⟨"ment".data, 5, none, .drop 4⟩,
   ⟨"tion".data, 0, none, .rep 4 ['t']⟩,
   ⟨"sion".data, 0, none, .rep 4 ['s']⟩,
   ⟨"ized".data, 0, none, .drop 1⟩,
   ⟨"izing".data, 0, none, .rep 3 ['e']⟩,
   ⟨"ize".data, 0, none, .keep⟩,
   ⟨"ating".data, 0, none, .rep 3 ['e']⟩,
   ⟨"ation".data, 0, none, .rep 5 "ate".data⟩,
   ⟨"ously".data, 0, none, .rep 5 "ous".data⟩,
   ⟨"ous".data, 5, none, .keep⟩,
   ⟨"ful".data, 0, none, .drop 3⟩,
   ⟨"ally".data, 0, none, .rep 4 "al".data⟩,
   ⟨"ably".data, 0, none, .rep 4 "able".data⟩,
   ⟨"ibly".data, 0, none, .rep 4 "ible".data⟩,
   ⟨"able".data, 5, none, .drop 4⟩,
   ⟨"ible".data, 5, none, .drop 4⟩,
   ⟨"ing".data, 4, none, .restore 3⟩,
   ⟨"ated".data, 5, none, .drop 1⟩,
   ⟨"ed".data, 4, none, .restore 2⟩,
   ⟨"ly".data, 4, none, .drop 2⟩,
   ⟨"er".data, 4, none, .drop 2⟩,
   ⟨"est".data, 4, none, .drop 3⟩,
   ⟨"s".data, 3, some "ss".data, .drop 1⟩]

/-- Whether a `_stem` branch's condition holds for `w`. -/
def ruleMatches (r : StemRule) (w : List Char) : Bool :=
  r.suf.isSuffixOf w && decide (r.minLen < w.length) &&
    (match r.notSuf with
     | some t => !t.isSuffixOf w
     | none => true)

/-- Apply a branch's right-hand side to `w`. -/
def applyAct : StemAct → List Char → List Char
  | .drop k, w => w.take (w.length - k)
  | .rep k suf, w => w.take (w.length - k) ++ suf
  | .keep, w => w
  | .restore k, w => restoreE (w.take (w.length - k))

/-- The simplified Porter stemmer `_stem` of recall.py: words of length at
most 3 pass through; otherwise the first matching branch of the table is
applied, and a word matching no branch is returned unchanged. -/
def stem (w : List Char) : List Char :=
  if w.length ≤ 3 then w
  else
    match STEM_RULES.find? (fun r => ruleMatches r w) with
    | some r => applyAct r.act w
    | none => w

/-- The tokenizer of recall.py: lowercase, take `[a-z0-9_]+` runs, drop
stopwords and single-character tokens, then stem each survivor. -/
def tokenize (text : List Char) : List (List Char) :=
  ((splitRuns (text.map lowerChar)).filter
    (fun t => !isStopword t && decide (t.length > 1))).map stem

/-- Python `" ".join(tokens)`. -/
def joinSpace : List (List Char) → List Char
  | [] => []
  | [u] => u
  | u :: v :: us => u ++ ' ' :: joinSpace (v :: us)

example : tokenize "Hello World".data = ["hello".data, "world".data] := by decide

/-! ### Facts about the tokenizer used for the idempotence analysis -/

theorem lowerChar_of_tok {c : Char} (h : isTokChar c = true) : lowerChar c = c := by
  unfold lowerChar
  rw [if_neg]
  intro hc
  simp only [isTokChar, Bool.or_eq_true, Bool.and_eq_true, decide_eq_true_eq,
    beq_iff_eq] at h
  omega

theorem splitRunsGo_nil (acc : List Char) :
    splitRunsGo [] acc = if acc.isEmpty then [] else [acc.reverse] := rfl

theorem splitRunsGo_cons (c : Char) (cs acc : List Char) :
    splitRunsGo (c :: cs) acc =
      if isTokChar c then splitRunsGo cs (c :: acc)
      else if acc.isEmpty then splitRunsGo cs acc
      else acc.reverse :: splitRunsGo cs [] := rfl

theorem isEmpty_ne_true_of_ne_nil {acc : List Char} (h : acc ≠ []) :
    ¬(acc.isEmpty = true) := by
  cases acc with
  | nil => exact absurd rfl h
  | cons a as => simp

theorem splitRunsGo_mem (l : List Char) : ∀ (acc : List Char),
    (∀ c ∈ acc, isTokChar c = true) →
    ∀ u ∈ splitRunsGo l acc, u ≠ [] ∧ ∀ c ∈ u, isTokChar c = true := by
  induction l with
  | nil =>
    intro acc hacc u hu
    unfold splitRunsGo at hu
    cases acc with
    | nil => simp at hu
    | cons a as =>
      simp only [List.isEmpty_cons, if_neg Bool.false_ne_true, List.mem_singleton] at hu
      subst hu
      refine ⟨by simp, fun c hc => hacc c (List.mem_reverse.mp hc)⟩
  | cons c cs ih =>
    intro acc hacc u hu
    unfold splitRunsGo at hu
    by_cases hc : isTokChar c = true
    · rw [if_pos hc] at hu
      refine ih (c :: acc) ?_ u hu
      intro d hd
      rcases List.mem_cons.mp hd with rfl | hd
      · exact hc
      · exact hacc d hd
    · rw [if_neg hc] at hu
      cases acc with
      | nil => simpa using ih [] (by simp) u (by simpa using hu)
      | cons a as =>
        simp only [List.isEmpty_cons, if_neg Bool.false_ne_true, List.mem_cons] at hu
        rcases hu with rfl | hu
        · exact ⟨by simp, fun d hd => hacc d (List.mem_reverse.mp hd)⟩
        · exact ih [] (by simp) u hu

theorem splitRunsGo_append_run (u : List Char) (hu : ∀ c ∈ u, isTokChar c = true) :
    ∀ (rest acc : List Char),
      splitRunsGo (u ++ rest) acc = splitRunsGo rest (u.reverse ++ acc) := by
  induction u with
  | nil => intro rest acc; simp
  | cons c cs ih =>
    intro rest acc
    have hc : isTokChar c = true := hu c (by simp)
    have e : (c :: cs) ++ rest = c :: (cs ++ rest) := rfl
    rw [e, splitRunsGo_cons, if_pos hc,
      ih (fun d hd => hu d (by simp [hd])) rest (c :: acc)]
    simp

theorem splitRunsGo_space (rest acc : List Char) (h : acc ≠ []) :
    splitRunsGo (' ' :: rest) acc = acc.reverse :: splitRunsGo rest [] := by
  rw [splitRunsGo_cons, if_neg (by decide : ¬(isTokChar ' ' = true)),
    if_neg (isEmpty_ne_true_of_ne_nil h)]

theorem splitRuns_joinSpace (us : List (List Char))
    (h : ∀ u ∈ us, u ≠ [] ∧ ∀ c ∈ u, isTokChar c = true) :
    splitRuns (joinSpace us) = us := by
  induction us with
  | nil => rfl
  | cons u vs ih =>
    obtain ⟨hne, htok⟩ := h u (by simp)
    cases vs with
    | nil =>
      show splitRunsGo (joinSpace [u]) [] = [u]
      have e : joinSpace [u] = u ++ [] := by simp [joinSpace]
      rw [e, splitRunsGo_append_run u htok [] [], List.append_nil, splitRunsGo_nil,
        if_neg (isEmpty_ne_true_of_ne_nil (by simpa using hne)),
        List.reverse_reverse]
    | cons v ws =>
      show splitRunsGo (u ++ ' ' :: joinSpace (v :: ws)) [] = u :: v :: ws
      rw [splitRunsGo_append_run u htok _ [], List.append_nil,
        splitRunsGo_space _ _ (by simpa using hne)]
      rw [List.reverse_reverse]
      exact congrArg _ (ih (fun w hw => h w (by simp [hw])))

theorem mem_joinSpace {c : Char} : ∀ {us : List (List Char)},
    c ∈ joinSpace us → c = ' ' ∨ ∃ u ∈ us, c ∈ u := by
  intro us
  induction us with
  | nil => intro h; simp [joinSpace] at h
  | cons u vs ih =>
    intro h
    cases vs with
    | nil => exact Or.inr ⟨u, by simp, by simpa [joinSpace] using h⟩
    | cons v ws =>
      rcases List.mem_append.mp h with h1 | h1
      · exact Or.inr ⟨u, by simp, h1⟩
      · rcases List.mem_cons.mp h1 with rfl | h2
        · exact Or.inl rfl
        · rcases ih h2 with h3 | ⟨w, hw, hc⟩
          · exact Or.inl h3
          · exact Or.inr ⟨w, by simp [hw], hc⟩

theorem map_lower_joinSpace (us : List (List Char))
    (h : ∀ u ∈ us, ∀ c ∈ u, isTokChar c = true) :
    (joinSpace us).map lowerChar = joinSpace us := by
  have hall : ∀ c ∈ joinSpace us, lowerChar c = c := by
    intro c hc
    rcases mem_joinSpace hc with rfl | ⟨u, hu, hcu⟩
    · decide
    · exact lowerChar_of_tok (h u hu c hcu)
  exact (List.map_congr_left hall).trans (List.map_id _)

theorem allTok_take {w : List Char} (h : w.all isTokChar = true) (n : Nat) :
    (w.take n).all isTokChar = true := by
  rw [List.all_eq_true] at *
  exact fun c hc => h c (List.take_subset _ w hc)

theorem allTok_restoreE {v : List Char} (h : v.all isTokChar = true) :
    (restoreE v).all isTokChar = true := by
  unfold restoreE
  split
  · rw [List.all_append, h]; rfl
  · exact h

/-- Every replacement suffix in the rule table consists of token characters. -/
theorem stem_rules_suffix_tok :
    (STEM_RULES.all fun r =>
      match r.act with
      | .rep _ suf => suf.all isTokChar
      | _ => true) = true := by decide

theorem allTok_applyAct {w : List Char} (hw : w.all isTokChar = true)
    {a : StemAct}
    (ha : (match a with | .rep _ suf => suf.all isTokChar | _ => true) = true) :
    (applyAct a w).all isTokChar = true := by
  cases a with
  | drop k => exact allTok_take hw _
  | rep k suf =>
    show ((w.take (w.length - k)) ++ suf).all isTokChar = true
    rw [List.all_append, allTok_take hw _, show suf.all isTokChar = true from ha]
    rfl
  | keep => exact hw
  | restore k => exact allTok_restoreE (allTok_take hw _)

theorem stem_tok {w : List Char} (h : ∀ c ∈ w, isTokChar c = true) :
    ∀ c ∈ stem w, isTokChar c = true := by
  suffices hs : (stem w).all isTokChar = true by
    exact fun c hc => List.all_eq_true.mp hs c hc
  have hw : w.all isTokChar = true := List.all_eq_true.mpr h
  unfold stem
  split
  · exact hw
  · cases hf : STEM_RULES.find? (fun r => ruleMatches r w) with
    | none => exact hw
    | some r =>
      have hr : r ∈ STEM_RULES := List.mem_of_find?_eq_some hf
      exact allTok_applyAct hw (List.all_eq_true.mp stem_rules_suffix_tok r hr)

theorem tokenize_tok (x : List Char) :
    ∀ u ∈ tokenize x, ∀ c ∈ u, isTokChar c = true := by
  intro u hu
  unfold tokenize at hu
  rcases List.mem_map.mp hu with ⟨t, ht, rfl⟩
  have ht' := (List.mem_filter.mp ht).1
  exact stem_tok (splitRunsGo_mem _ [] (by simp) t ht').2

/-- C5 counterexample. Tokenization is not idempotent on alphanumeric
input: `tokenize "thens" = ["then"]` (the final `s` is stripped by the
stemmer), but `"then"` is a stopword, so re-tokenizing the joined output
yields `[]`. -/
theorem tokenize_not_idempotent_on_thens :
    tokenize (joinSpace (tokenize "thens".data)) ≠ tokenize "thens".data := by
  decide

/-- C5 amended. Tokenization is idempotent exactly when every emitted token
survives a second pass: for every input whose tokens are non-stopwords of
length at least 2 that are fixed points of the stemmer,
`tokenize (join " " (tokenize x)) = tokenize x`. The hypotheses are forced:
a token can stem to a stopword (`thens ↦ then`) or to a non-fixed-point
(`payments ↦ payment ↦ pay`), and either breaks idempotence. -/
theorem tokenize_idempotent_of_fixed_tokens (x : List Char)
    (h : ∀ u ∈ tokenize x, isStopword u = false ∧ 1 < u.length ∧ stem u = u) :
    tokenize (joinSpace (tokenize x)) = tokenize x := by
  have htok : ∀ u ∈ tokenize x, ∀ c ∈ u, isTokChar c = true := tokenize_tok x
  have hne : ∀ u ∈ tokenize x, u ≠ [] := by
    intro u hu hnil
    have := (h u hu).2.1
    rw [hnil] at this
    simp at this
  show ((splitRuns ((joinSpace (tokenize x)).map lowerChar)).filter
    (fun t => !isStopword t && decide (t.length > 1))).map stem = tokenize x
  rw [map_lower_joinSpace _ htok,
    splitRuns_joinSpace _ (fun u hu => ⟨hne u hu, htok u hu⟩),
    List.filter_eq_self.mpr (fun u hu => by
      have := h u hu
      simp [this.1, this.2.1])]
  exact (List.map_congr_left (fun u hu => (h u hu).2.2)).trans (List.map_id _)

/-- Witness for the amended C5 theorem at a concrete input. -/
theorem tokenize_idempotent_of_fixed_tokens_witness :
    tokenize (joinSpace (tokenize "jwt authentication".data)) =
      tokenize "jwt authentication".data :=
  tokenize_idempotent_of_fixed_tokens "jwt authentication".data (by decide)

/-! ## No-touch window (scripts/apply_engine.py, lines 582-597 and 668-675)

`check_no_touch_window` loads `last_apply_ts` from intel state and compares
it against a 10-minute window. `datetime.fromisoformat` (after the
`Z → +00:00` substitution) is modeled by an abstract parser argument
returning either a timezone-aware or a naive timestamp in epoch seconds, or
`none` for a parse failure (`ValueError`).

The aware case reproduces the source faithfully: for an aware `last`, the
code computes `now = datetime.now(last.tzinfo)` (aware) and then evaluates
`delta = (now - last.replace(tzinfo=None)) if last.tzinfo else (now - last)`;
the first arm subtracts a naive datetime from an aware one, which raises
`TypeError`, and the surrounding `except (ValueError, TypeError): pass`
swallows it and falls through to `return True, "Cooldown clear"`. Only a
naive timestamp ever reaches the 10-minute comparison. -/

/-- Outcome of parsing an ISO-8601 timestamp: timezone-aware or naive, with
the instant as epoch seconds. -/
inductive ParsedTs
  | aware (epoch : Int)
  | naive (epoch : Int)

/-- The slice of `memory/intel-state.json` that the no-touch check reads. -/
structure IntelState where
  lastApplyTs : Option String

/-- Reason string of a failing no-touch check (minutes and seconds left). -/
def noTouchReason (remaining : Int) : String :=
  "No-touch window: " ++ toString (remaining / 60) ++ "m " ++
    toString (remaining % 60) ++ "s remaining"

/-- The `check_no_touch_window` gate. `parseIso` abstracts
`datetime.fromisoformat` applied to the `Z → +00:00` rewritten string;
`nowSec` is the current time in epoch seconds. -/
def check_no_touch_window (parseIso : String → Option ParsedTs) (nowSec : Int)
    (st : IntelState) : Bool × String :=
  match st.lastApplyTs with
  | none => (true, "No previous apply")
  | some s =>
    if s = "" then (true, "No previous apply")
    else
      match parseIso s with
      | none => (true, "Cooldown clear")
      | some (.aware _) => (true, "Cooldown clear")
      | some (.naive t) =>
        if nowSec - t < 600 then (false, noTouchReason (600 - (nowSec - t)))
        else (true, "Cooldown clear")

/-- C10. A missing, empty, or unparseable `last_apply_ts` never blocks an
apply: the gate returns success and the 10-minute window is silently
bypassed. -/
theorem no_touch_bypassed_on_malformed (parseIso : String → Option ParsedTs)
    (nowSec : Int) (st : IntelState)
    (h : st.lastApplyTs = none ∨ st.lastApplyTs = some "" ∨
      ∃ s, st.lastApplyTs = some s ∧ parseIso s = none) :
    (check_no_touch_window parseIso nowSec st).1 = true := by
  rcases h with h | h | ⟨s, hs, hp⟩
  · simp [check_no_touch_window, h]
  · simp [check_no_touch_window, h]
  · rw [check_no_touch_window, hs]
    by_cases he : s = ""
    · simp [he]
    · simp [he, hp]

/-- Witness for C10 at a concrete malformed timestamp. -/
theorem no_touch_bypassed_on_malformed_witness :
    (check_no_touch_window (fun _ => none) 0 ⟨some "not-a-date"⟩).1 = true :=
  no_touch_bypassed_on_malformed (fun _ => none) 0 ⟨some "not-a-date"⟩
    (Or.inr (Or.inr ⟨"not-a-date", rfl, rfl⟩))

/-- C7. The no-touch gate never fails on a timezone-aware `last_apply_ts`,
regardless of how recently the last apply happened: the aware-minus-naive
subtraction raises `TypeError`, which the handler swallows, and the gate
returns success. Since `update_last_apply_ts` writes `...Z` timestamps
(which parse as aware), the gate can never fire on the engine's own
recorded state, contradicting the repository's own test
`test_recent_apply_blocks`. -/
theorem no_touch_gate_passes_on_aware (parseIso : String → Option ParsedTs)
    (nowSec lastSec : Int) (s : String) (hs : s ≠ "")
    (hp : parseIso s = some (.aware lastSec)) :
    check_no_touch_window parseIso nowSec ⟨some s⟩ = (true, "Cooldown clear") := by
  rw [check_no_touch_window]
  simp [hs, hp]

/-- Witness for C7: one minute after an aware-timestamped apply, the gate
still reports the cooldown as clear. -/
theorem no_touch_gate_passes_on_aware_witness :
    check_no_touch_window
      (fun s => if s = "2026-02-13T10:09:00Z" then some (.aware 1000000) else none)
      1000060 ⟨some "2026-02-13T10:09:00Z"⟩ = (true, "Cooldown clear") :=
  no_touch_gate_passes_on_aware _ 1000060 1000000 "2026-02-13T10:09:00Z"
    (by decide) (by simp)

/-! ## Snapshot and restore (scripts/apply_engine.py, lines 52-55, 179-209)

The filesystem is an association list from paths (component lists) to file
contents; `fsLookup` returns the first match. `create_snapshot` copies the
watched subtrees and top-level files (`shutil.copytree` / `copy2` into the
snapshot directory). `restore_snapshot` copies the snapshot back with
`shutil.copytree(src, dst, dirs_exist_ok=True)`, which overwrites files
present in the snapshot but never deletes workspace files absent from it;
this merge semantics is modeled by prepending the snapshot's entries so
they shadow workspace entries at the same path while all other workspace
entries stay visible. -/

/-- The seven watched subtrees (`SNAPSHOT_DIRS`). -/
def SNAPSHOT_DIRS : List String :=
  ["decisions", "tasks", "entities", "summaries", "intelligence", "memory",
   "maintenance"]

/-- The watched top-level files (`SNAPSHOT_FILES`). -/
def SNAPSHOT_FILES : List String := ["AGENTS.md", "MEMORY.md", "IDENTITY.md"]

/-- A workspace: an association list from paths to file contents. -/
abbrev FS := List (List String × String)

/-- First-match lookup of a path. -/
def fsLookup (fs : FS) (p : List String) : Option String :=
  (List.find? (fun e => e.1 == p) fs).map (·.2)

/-- Whether a path is covered by the snapshot: under a watched subtree, or
one of the watched top-level files. -/
def inSnapshotRegion (p : List String) : Bool :=
  match p with
  | [f] => SNAPSHOT_FILES.any (fun d => d == f)
  | d :: rest => SNAPSHOT_DIRS.any (fun x => x == d) && !rest.isEmpty
  | [] => false

/-- `create_snapshot`: copy every watched path of the workspace. -/
def create_snapshot (ws : FS) : FS :=
  List.filter (fun e => inSnapshotRegion e.1) ws

/-- `restore_snapshot`: merge the snapshot back over the workspace
(`copytree` with `dirs_exist_ok=True`): snapshot entries shadow workspace
entries at the same watched path, and every other workspace entry remains. -/
def restore_snapshot (ws snap : FS) : FS :=
  List.filter (fun e => inSnapshotRegion e.1) snap ++ ws

/-- C1. Restore does not delete files created after the snapshot: with a
workspace holding `decisions/DECISIONS.md`, after snapshotting, creating
`decisions/ROGUE.md`, and restoring, the rogue file is still present (and
the original is intact). The repository's own test
`test_rollback_removes_new_files` requires the rogue file to be gone. -/
theorem restore_keeps_file_created_after_snapshot :
    fsLookup
      (restore_snapshot
        ((["decisions", "ROGUE.md"], "rogue") ::
          [(["decisions", "DECISIONS.md"], "# Decisions")])
        (create_snapshot [(["decisions", "DECISIONS.md"], "# Decisions")]))
      ["decisions", "ROGUE.md"] = some "rogue" ∧
    fsLookup
      (restore_snapshot
        ((["decisions", "ROGUE.md"], "rogue") ::
          [(["decisions", "DECISIONS.md"], "# Decisions")])
        (create_snapshot [(["decisions", "DECISIONS.md"], "# Decisions")]))
      ["decisions", "DECISIONS.md"] = some "# Decisions" := by
  constructor <;> rfl

/-! ## Proposal validation (scripts/apply_engine.py, lines 35-49, 75-119)

Blocks are modeled with the fields `validate_proposal` reads; an absent
string field is the empty string (both are falsy in the source). Evidence
distinguishes the string and list shapes. Diagnostic messages are
abbreviated relative to the source's f-strings; no message the source can
produce contains the words `traversal` or `absolute`. -/

/-- Evidence is either a single string or a list of strings in the source. -/
inductive EvidenceVal
  | str (s : String)
  | list (l : List String)

/-- Python truthiness of the raw Evidence value. -/
def evidenceTruthy : EvidenceVal → Bool
  | .str s => !(s == "")
  | .list l => !l.isEmpty

/-- The string-list normalization `if isinstance(evidence, str): [evidence]`. -/
def evidenceList : EvidenceVal → List String
  | .str s => [s]
  | .list l => l

/-- An op record as `validate_proposal` and `execute_op` read it: op type,
file, and target, with the empty string for an absent key. -/
structure OpRec where
  op : String
  file : String
  target : String

/-- A proposal block as `validate_proposal` reads it. -/
structure Proposal where
  proposalId : String
  ptype : String
  risk : String
  status : String
  evidence : EvidenceVal
  rollback : String
  ops : List OpRec
  filesTouched : List String

/-- The valid op types (`VALID_OPS`). -/
def VALID_OPS : List String :=
  ["append_block", "insert_after_block", "update_field", "append_list_item",
   "replace_range", "set_status", "supersede_decision"]

/-- The valid risks (`VALID_RISKS`). -/
def VALID_RISKS : List String := ["low", "medium", "high"]

/-- The valid types (`VALID_TYPES`). -/
def VALID_TYPES : List String := ["decision", "task", "edit"]

/-- The op types that require a `target` key. -/
def TARGET_OPS : List String :=
  ["update_field", "append_list_item", "set_status", "replace_range",
   "insert_after_block", "supersede_decision"]

/-- Per-op validation errors, indexed from `i` (the `enumerate(ops)` loop). -/
def opErrors (i : Nat) : List OpRec → List String
  | [] => []
  | o :: os =>
    (if VALID_OPS.any (fun v => v == o.op) then []
     else ["Ops[" ++ toString i ++ "]: invalid op type " ++ o.op]) ++
    (if o.file = "" then ["Ops[" ++ toString i ++ "]: missing file"] else []) ++
    (if TARGET_OPS.any (fun v => v == o.op) && o.target == "" then
      ["Ops[" ++ toString i ++ "]: op " ++ o.op ++ " requires target"]
     else []) ++
    opErrors (i + 1) os

/-- `validate_proposal`: required fields, enum membership, staged status,
non-empty evidence, op checks, and the FilesTouched superset check, in
source order. There is no path inspection of any kind. -/
def validate_proposal (p : Proposal) : List String :=
  (if p.proposalId = "" then ["Missing required field: ProposalId"] else []) ++
  (if p.ptype = "" then ["Missing required field: Type"] else []) ++
  (if p.risk = "" then ["Missing required field: Risk"] else []) ++
  (if p.status = "" then ["Missing required field: Status"] else []) ++
  (if evidenceTruthy p.evidence then [] else ["Missing required field: Evidence"]) ++
  (if p.rollback = "" then ["Missing required field: Rollback"] else []) ++
  (if VALID_RISKS.any (fun v => v == p.risk) then []
   else ["Invalid Risk: " ++ p.risk]) ++
  (if VALID_TYPES.any (fun v => v == p.ptype) then []
   else ["Invalid Type: " ++ p.ptype]) ++
  (if p.status = "staged" then []
   else ["Status must be staged to apply (got " ++ p.status ++ ")"]) ++
  (if evidenceList p.evidence = [] ∨ evidenceList p.evidence = [""] then
    ["Evidence is empty"] else []) ++
  (if p.ops.isEmpty then ["No Ops defined"] else []) ++
  opErrors 0 p.ops ++
  (if !p.filesTouched.isEmpty && !(p.ops.map (·.file)).isEmpty &&
      !((p.ops.map (·.file)).all (fun f => p.filesTouched.any (fun t => t == f)))
   then ["Ops reference files not in FilesTouched"] else [])

/-- C2. `validate_proposal` performs no path-safety check: for an otherwise
valid proposal whose single op targets the absolute path `/etc/passwd` — or
the traversal path `../../../etc/shadow` from the repository's own test
`test_rejects_path_traversal_in_ops` — validation returns no errors at all,
so in particular no error mentioning `traversal` or `absolute`. -/
theorem validate_accepts_traversal_paths :
    validate_proposal
      ⟨"P-20260213-001", "decision", "low", "staged", .str "Test evidence",
        "Revert changes", [⟨"append_block", "/etc/passwd", ""⟩], []⟩ = [] ∧
    validate_proposal
      ⟨"P-20260213-001", "decision", "low", "staged", .str "Test evidence",
        "Revert changes", [⟨"append_block", "../../../etc/shadow", ""⟩], []⟩ = [] := by
  constructor <;> rfl

/-! ## Fingerprint deduplication (scripts/apply_engine.py, lines 539-565)

`compute_fingerprint` hashes a canonical JSON of Type, TargetBlock, and the
`(op, file, target)` triples; the SHA-256 prefix is modeled as an
uninterpreted function argument since the dedup gate depends only on string
equality of fingerprints. `check_fingerprint_dedup` scans every block of
the proposed files in order and reports the first block whose `Status` is
`staged` or `deferred` and whose stored `Fingerprint` equals the computed
one — with no exclusion of the proposal's own block. -/

/-- `compute_fingerprint`: hash of the canonical (Type, TargetBlock, ops)
content. `hash16` abstracts the 16-hex-character SHA-256 prefix. -/
def compute_fingerprint
    (hash16 : String × String × List (String × String × String) → String)
    (ptype ptarget : String) (ops : List (String × String × String)) : String :=
  hash16 (ptype, ptarget, ops)

/-- A proposed-file block as the dedup scan reads it. -/
structure PropBlock where
  id : String
  status : String
  fingerprint : String

/-- `check_fingerprint_dedup`: report the first staged/deferred block whose
stored fingerprint equals the computed one. -/
def check_fingerprint_dedup (fp : String) (blocks : List PropBlock) :
    Bool × Option String :=
  match List.find?
      (fun b => (b.status == "staged" || b.status == "deferred") &&
        b.fingerprint == fp) blocks with
  | some b => (true, some b.id)
  | none => (false, none)

/-- C4. The dedup gate has no self-exclusion: in a workspace holding exactly
one staged proposal whose stored Fingerprint equals its own computed
fingerprint, the gate reports the proposal as a duplicate of itself. The
repository's own test `test_self_match_not_duplicate` requires no
duplicate here. -/
theorem dedup_reports_self_as_duplicate :
    check_fingerprint_dedup
      (compute_fingerprint (fun _ => "f3a9c2d1e0b47a65") "decision"
        "D-20260214-001" [("append_block", "decisions/DECISIONS.md", "")])
      [⟨"P-20260214-001", "staged", "f3a9c2d1e0b47a65"⟩] =
      (true, some "P-20260214-001") := by
  rfl

/-! ## Post-snapshot apply pipeline (scripts/apply_engine.py, lines 779-822)

After the snapshot is taken the pipeline executes the ops in order, then
runs post-checks. The outcome is modeled from the three exit paths of the
source: on the first failing op it calls `restore_snapshot` and finalizes
the receipt as `rolled_back` but does not touch the proposal's Status
(lines 785-789); on failing post-checks it restores, finalizes the receipt,
and marks the proposal `rolled_back` (lines 803-809); on success it
finalizes the receipt as `applied` and marks the proposal `applied`
(lines 817-818). Op execution and the external post-checks are abstracted
to their boolean outcomes. -/

/-- What the pipeline did after the snapshot: overall success, whether the
snapshot was restored, the `FinalStatus` written to the receipt, and the
status written into the proposal's source file (if any). -/
structure ApplyOutcome where
  success : Bool
  restored : Bool
  receiptFinal : Option String
  proposalMark : Option String

/-- The post-snapshot portion of `apply_proposal`: execute ops, then
post-check, with the three exit paths of the source. -/
def apply_after_snapshot (opResults : List Bool) (postChecksOk : Bool) :
    ApplyOutcome :=
  if opResults.all id then
    if postChecksOk then ⟨true, false, some "applied", some "applied"⟩
    else ⟨false, true, some "rolled_back", some "rolled_back"⟩
  else ⟨false, true, some "rolled_back", none⟩

/-- C3 counterexample. An apply whose first op fails is a failure after the
snapshot, and it restores the workspace and finalizes the receipt — but the
proposal's Status is never set to `rolled_back` (only the post-check
failure path calls `_mark_proposal_status`). -/
theorem apply_op_failure_does_not_mark_proposal :
    (apply_after_snapshot [false] true).success = false ∧
    (apply_after_snapshot [false] true).restored = true ∧
    (apply_after_snapshot [false] true).proposalMark ≠ some "rolled_back" := by
  refine ⟨rfl, rfl, ?_⟩
  intro h
  simp [apply_after_snapshot] at h

/-- C3 amended. Every apply attempt that fails after the snapshot restores
the watched subtrees and finalizes the receipt with
`FinalStatus: rolled_back`; the proposal's Status is additionally set to
`rolled_back` exactly when the failure came from the post-checks (all ops
succeeded), and is left untouched when an op failed mid-execution. -/
theorem apply_failure_rolls_back (opResults : List Bool) (postChecksOk : Bool)
    (h : (apply_after_snapshot opResults postChecksOk).success = false) :
    (apply_after_snapshot opResults postChecksOk).restored = true ∧
    (apply_after_snapshot opResults postChecksOk).receiptFinal =
      some "rolled_back" ∧
    ((apply_after_snapshot opResults postChecksOk).proposalMark =
        some "rolled_back" ↔ opResults.all id = true) := by
  by_cases hops : opResults.all id = true
  · cases hpost : postChecksOk
    · simp [apply_after_snapshot, hops, hpost]
    · rw [hpost] at h
      simp [apply_after_snapshot, hops] at h
  · have hops' : opResults.all id = false := by
      cases hh : opResults.all id
      · rfl
      · exact absurd hh hops
    simp [apply_after_snapshot, hops']

/-- Witness for the amended C3 theorem: a post-check failure after one
successful op. -/
theorem apply_failure_rolls_back_witness :
    (apply_after_snapshot [true] false).restored = true ∧
    (apply_after_snapshot [true] false).receiptFinal = some "rolled_back" ∧
    ((apply_after_snapshot [true] false).proposalMark = some "rolled_back" ↔
      [true].all id = true) :=
  apply_failure_rolls_back [true] false (by decide)

/-! ## Op executors (scripts/apply_engine.py, lines 347-456)

A file is a list of lines without their trailing newline. Because
`readlines` leaves a `"\n"` on every line except possibly the last, the
field regex `^<field>:\s+.*$` also matches a line that is exactly
`<field>:` (the newline satisfies `\s+`); `matchFieldLine` accounts for
that. Each executor returns the written file contents on success and
`none` on failure (the Python `(False, reason)` paths, where the file is
left as it was at that point). -/

/-- The regex class `[A-Z]`. -/
def isUpperAZ (c : Char) : Bool := 65 ≤ c.toNat && c.toNat ≤ 90

/-- The regex class `\s` (ASCII). -/
def isPySpace (c : Char) : Bool :=
  c.toNat == 32 || c.toNat == 9 || c.toNat == 10 || c.toNat == 13 ||
    c.toNat == 12 || c.toNat == 11

/-- The target pattern `^\[<target>\]` (a prefix match). -/
def matchTargetLine (tgt l : String) : Bool :=
  ("[" ++ tgt ++ "]").data.isPrefixOf l.data

/-- The block-header pattern `^\[[A-Z]+-[^\]]+\]\s*$`. -/
def isBlockHeaderLine (l : String) : Bool :=
  match l.data with
  | '[' :: rest =>
    let p1 := rest.span isUpperAZ
    !p1.1.isEmpty &&
      (match p1.2 with
       | '-' :: r2 =>
         let p2 := r2.span (fun c => !(c == ']'))
         !p2.1.isEmpty &&
           (match p2.2 with
            | ']' :: r4 => r4.all isPySpace
            | _ => false)
       | _ => false)
  | _ => false

/-- The field pattern `^<field>:\s+.*$` against a newline-stripped line. -/
def matchFieldLine (fld l : String) : Bool :=
  (fld ++ ":").data.isPrefixOf l.data &&
    (match l.data.drop (fld.length + 1) with
     | [] => true
     | c :: _ => isPySpace c)

/-- The scan loop of `_op_update_field`: track `in_target`, stop at the next
block header, and replace the first matching field line. `none` means the
loop ended with `updated` still false (no write happens). -/
def update_field_go (tgt fld val : String) : List String → Bool → Option (List String)
  | [], _ => none
  | l :: ls, inT =>
    if matchTargetLine tgt l then
      (update_field_go tgt fld val ls true).map (l :: ·)
    else if inT && isBlockHeaderLine l then none
    else if inT && matchFieldLine fld l then some ((fld ++ ": " ++ val) :: ls)
    else (update_field_go tgt fld val ls inT).map (l :: ·)

/-- `_op_update_field`: guard on missing target/field, then scan-and-write. -/
def _op_update_field (lines : List String) (tgt fld val : String) :
    Option (List String) :=
  if tgt = "" || fld = "" then none
  else update_field_go tgt fld val lines false

/-- `line.strip() == ""`. -/
def stripAllSpace (l : String) : Bool := l.data.all isPySpace

/-- The scan loop of `_op_append_list_item`, returning the computed
`insert_at` (or `none`). Tracks `in_target`/`in_list`; a line starting the
list field sets the position after it; list items advance it; the first
blank or non-item line inside the list fixes the position there (both
source branches set `insert_at = i` and break). -/
def append_list_go (tgt lf : String) :
    List String → Nat → Bool → Bool → Option Nat → Option Nat
  | [], _, _, _, ia => ia
  | l :: ls, i, inT, inL, ia =>
    if matchTargetLine tgt l then append_list_go tgt lf ls (i + 1) true inL ia
    else if inT && isBlockHeaderLine l then ia
    else if inT then
      if (lf ++ ":").data.isPrefixOf l.data then
        append_list_go tgt lf ls (i + 1) inT true (some (i + 1))
      else if inL then
        if "- ".data.isPrefixOf l.data || "  -".data.isPrefixOf l.data then
          append_list_go tgt lf ls (i + 1) inT inL (some (i + 1))
        else some i
      else append_list_go tgt lf ls (i + 1) inT inL ia
    else append_list_go tgt lf ls (i + 1) inT inL ia

/-- Strip a leading and trailing run of characters satisfying `p`. -/
def stripChars (p : Char → Bool) (l : List Char) : List Char :=
  ((l.dropWhile p).reverse.dropWhile p).reverse

/-- `item.strip().strip(quote).strip(apostrophe)` of the source. -/
def cleanItem (item : String) : String :=
  String.mk (stripChars (fun c => c == Char.ofNat 39)
    (stripChars (fun c => c == Char.ofNat 34) (stripChars isPySpace item.data)))

/-- `_op_append_list_item`: guard, scan for the insertion point, insert
`- <item>`. -/
def _op_append_list_item (lines : List String) (tgt lf item : String) :
    Option (List String) :=
  if tgt = "" || lf = "" then none
  else
    match append_list_go tgt lf lines 0 false false none with
    | none => none
    | some ia => some (List.insertIdx ia ("- " ++ cleanItem item) lines)

/-- `_op_set_status`: update the Status field (first write), then, when a
history string is given, append to the History list (second write). A
failing second step returns failure while the first write's contents stay
on disk — this is the returned file state. -/
def _op_set_status (lines : List String) (tgt status history : String) :
    Bool × List String :=
  if tgt = "" || status = "" then (false, lines)
  else
    match _op_update_field lines tgt "Status" status with
    | none => (false, lines)
    | some l1 =>
      if history = "" then (true, l1)
      else
        match _op_append_list_item l1 tgt "History" history with
        | none => (false, l1)
        | some l2 => (true, l2)

theorem update_field_go_writes_field {tgt fld val : String} :
    ∀ (ls : List String) (inT : Bool) (out : List String),
      update_field_go tgt fld val ls inT = some out →
      ∃ i, out.get? i = some (fld ++ ": " ++ val) := by
  intro ls
  induction ls with
  | nil =>
    intro inT out h
    exact absurd h (by simp [update_field_go])
  | cons l ls ih =>
    intro inT out h
    rw [update_field_go] at h
    split at h
    · rcases Option.map_eq_some'.mp h with ⟨prev, hp, rfl⟩
      obtain ⟨i, hi⟩ := ih true prev hp
      exact ⟨i + 1, by simpa using hi⟩
    · split at h
      · exact absurd h (by simp)
      · split at h
        · rcases Option.some_inj.mp h with rfl
          exact ⟨0, rfl⟩
        · rcases Option.map_eq_some'.mp h with ⟨prev, hp, rfl⟩
          obtain ⟨i, hi⟩ := ih inT prev hp
          exact ⟨i + 1, by simpa using hi⟩

/-- C9. `set_status` is not atomic: when the Status update succeeds but the
History append fails (no History list field in the target block), the op
reports failure, yet the file it leaves behind is the Status-rewritten one
— the new Status value is already on disk, and only the pipeline-level
snapshot restore can undo it. -/
theorem set_status_partial_write (lines l1 : List String)
    (tgt st hist : String) (hst : st ≠ "") (hh : hist ≠ "")
    (hupd : _op_update_field lines tgt "Status" st = some l1)
    (happ : _op_append_list_item l1 tgt "History" hist = none) :
    _op_set_status lines tgt st hist = (false, l1) ∧
      ∃ i, l1.get? i = some ("Status: " ++ st) := by
  have htgt : tgt ≠ "" := by
    intro hx
    rw [_op_update_field, hx] at hupd
    simp at hupd
  constructor
  · rw [_op_set_status, if_neg (by simp [htgt, hst]), hupd]
    simp only [if_neg hh, happ]
  · rw [_op_update_field, if_neg (by simp [htgt])] at hupd
    exact update_field_go_writes_field lines false l1 hupd

/-- Witness for C9 at a concrete two-line block holding a Status field and
no History list. -/
theorem set_status_partial_write_witness :
    _op_set_status ["[D-20260101-001]", "Status: staged"] "D-20260101-001"
        "applied" "2026-01-02 note" =
      (false, ["[D-20260101-001]", "Status: applied"]) ∧
    ∃ i, ["[D-20260101-001]", "Status: applied"].get? i =
      some ("Status: " ++ "applied") :=
  set_status_partial_write ["[D-20260101-001]", "Status: staged"]
    ["[D-20260101-001]", "Status: applied"] "D-20260101-001" "applied"
    "2026-01-02 note" (by decide) (by decide) (by decide) (by decide)

/-! ## Exact rational scores

Python floats are modeled by exact rationals. Mathlib's `ℚ` normalizes
through `Nat.gcd`, which the kernel cannot evaluate, so scores are carried
by `Frac`: an integer numerator over a positive integer denominator,
without normalization. Every arithmetic operation and comparison below is
kernel-computable, and `Frac.toRat` transports order facts to `ℚ`, where
the general theorems are stated. -/

/-- An exact rational: numerator over a positive denominator, not
necessarily reduced. -/
structure Frac where
  num : Int
  den : Int
  dpos : 0 < den

namespace Frac

/-- Value of a `Frac` in `ℚ`. -/
def toRat (a : Frac) : ℚ := (a.num : ℚ) / (a.den : ℚ)

protected def add (a b : Frac) : Frac :=
  ⟨a.num * b.den + b.num * a.den, a.den * b.den, mul_pos a.dpos b.dpos⟩

protected def sub (a b : Frac) : Frac :=
  ⟨a.num * b.den - b.num * a.den, a.den * b.den, mul_pos a.dpos b.dpos⟩

protected def mul (a b : Frac) : Frac :=
  ⟨a.num * b.num, a.den * b.den, mul_pos a.dpos b.dpos⟩

/-- Division; a zero divisor yields 0 (matching the junk value of `ℚ`). -/
protected def div (a b : Frac) : Frac :=
  if h : 0 < b.num then ⟨a.num * b.den, a.den * b.num, mul_pos a.dpos h⟩
  else if h2 : b.num < 0 then
    ⟨-(a.num * b.den), -(a.den * b.num),
      neg_pos.mpr (mul_neg_of_pos_of_neg a.dpos h2)⟩
  else ⟨0, 1, Int.zero_lt_one⟩

instance : Add Frac := ⟨Frac.add⟩
instance : Sub Frac := ⟨Frac.sub⟩
instance : Mul Frac := ⟨Frac.mul⟩
instance : Div Frac := ⟨Frac.div⟩
instance (n : Nat) : OfNat Frac n := ⟨⟨(n : Int), 1, Int.zero_lt_one⟩⟩
instance : NatCast Frac := ⟨fun n => ⟨(n : Int), 1, Int.zero_lt_one⟩⟩
instance : IntCast Frac := ⟨fun n => ⟨n, 1, Int.zero_lt_one⟩⟩
instance : LE Frac := ⟨fun a b => a.num * b.den ≤ b.num * a.den⟩
instance : LT Frac := ⟨fun a b => a.num * b.den < b.num * a.den⟩

instance (a b : Frac) : Decidable (a ≤ b) :=
  inferInstanceAs (Decidable (a.num * b.den ≤ b.num * a.den))

instance (a b : Frac) : Decidable (a < b) :=
  inferInstanceAs (Decidable (a.num * b.den < b.num * a.den))

instance : Max Frac := ⟨fun a b => if a ≤ b then b else a⟩

theorem add_def (a b : Frac) : a + b = Frac.add a b := rfl

theorem sub_def (a b : Frac) : a - b = Frac.sub a b := rfl

theorem mul_def (a b : Frac) : a * b = Frac.mul a b := rfl

theorem div_def (a b : Frac) : a / b = Frac.div a b := rfl

theorem le_def (a b : Frac) : (a ≤ b) = (a.num * b.den ≤ b.num * a.den) := rfl

theorem lt_def (a b : Frac) : (a < b) = (a.num * b.den < b.num * a.den) := rfl

theorem max_def (a b : Frac) : max a b = if a ≤ b then b else a := rfl

theorem den_cast_pos (a : Frac) : (0 : ℚ) < (a.den : ℚ) := by
  exact_mod_cast a.dpos

theorem den_cast_ne (a : Frac) : ((a.den : ℚ)) ≠ 0 := (den_cast_pos a).ne'

theorem toRat_mk (n d : Int) (h : 0 < d) :
    (⟨n, d, h⟩ : Frac).toRat = (n : ℚ) / (d : ℚ) := rfl

theorem toRat_ofNat (n : Nat) : (OfNat.ofNat n : Frac).toRat = (n : ℚ) := by
  show ((n : Int) : ℚ) / ((1 : Int) : ℚ) = _
  rw [Int.cast_one, div_one, Int.cast_natCast]

theorem toRat_natCast (n : Nat) : (n : Frac).toRat = (n : ℚ) := by
  show ((n : Int) : ℚ) / ((1 : Int) : ℚ) = _
  rw [Int.cast_one, div_one, Int.cast_natCast]

theorem toRat_intCast (n : Int) : (n : Frac).toRat = (n : ℚ) := by
  show ((n : Int) : ℚ) / ((1 : Int) : ℚ) = _
  rw [Int.cast_one, div_one]

theorem toRat_add (a b : Frac) : (a + b).toRat = a.toRat + b.toRat := by
  show ((a.num * b.den + b.num * a.den : ℤ) : ℚ) / ((a.den * b.den : ℤ) : ℚ) =
    (a.num : ℚ) / (a.den : ℚ) + (b.num : ℚ) / (b.den : ℚ)
  push_cast
  rw [div_add_div _ _ (den_cast_ne a) (den_cast_ne b)]
  ring_nf

theorem toRat_sub (a b : Frac) : (a - b).toRat = a.toRat - b.toRat := by
  show ((a.num * b.den - b.num * a.den : ℤ) : ℚ) / ((a.den * b.den : ℤ) : ℚ) =
    (a.num : ℚ) / (a.den : ℚ) - (b.num : ℚ) / (b.den : ℚ)
  push_cast
  rw [div_sub_div _ _ (den_cast_ne a) (den_cast_ne b)]
  ring_nf

theorem toRat_mul (a b : Frac) : (a * b).toRat = a.toRat * b.toRat := by
  rw [mul_def]
  unfold Frac.mul Frac.toRat
  push_cast
  field_simp

theorem toRat_div (a b : Frac) : (a / b).toRat = a.toRat / b.toRat := by
  rw [div_def]
  unfold Frac.div Frac.toRat
  split
  · next h =>
    have ha := den_cast_ne a
    have hb := den_cast_ne b
    have hbn : ((b.num : ℚ)) ≠ 0 := by exact_mod_cast h.ne'
    push_cast
    field_simp
  · split
    · next h2 =>
      have ha := den_cast_ne a
      have hb := den_cast_ne b
      have hbn : ((b.num : ℚ)) ≠ 0 := by exact_mod_cast h2.ne
      push_cast
      field_simp
    · have hbn : b.num = 0 := by omega
      simp [hbn]

theorem le_iff (a b : Frac) : a ≤ b ↔ a.toRat ≤ b.toRat := by
  rw [le_def]
  unfold Frac.toRat
  rw [div_le_div_iff (den_cast_pos a) (den_cast_pos b)]
  constructor <;> intro h <;> exact_mod_cast h

theorem lt_iff (a b : Frac) : a < b ↔ a.toRat < b.toRat := by
  rw [lt_def]
  unfold Frac.toRat
  rw [div_lt_div_iff (den_cast_pos a) (den_cast_pos b)]
  constructor <;> intro h <;> exact_mod_cast h

theorem not_le_flip {a b : Frac} (h : ¬a ≤ b) : b ≤ a := by
  rw [le_def] at h ⊢
  exact le_of_not_le h

theorem toRat_max (a b : Frac) : (max a b).toRat = max a.toRat b.toRat := by
  rw [max_def]
  split
  · next h => rw [max_eq_right ((le_iff a b).mp h)]
  · next h => rw [max_eq_left ((le_iff b a).mp (not_le_flip h))]

theorem toRat_zero : (0 : Frac).toRat = 0 := by
  rw [toRat_ofNat]
  norm_num

theorem toRat_one : (1 : Frac).toRat = 1 := by
  rw [toRat_ofNat]
  norm_num

theorem toRat_ofNat_lit (n : ℕ) [n.AtLeastTwo] :
    Frac.toRat (no_index (OfNat.ofNat n)) = OfNat.ofNat n := by
  show ((n : Int) : ℚ) / ((1 : Int) : ℚ) = _
  rw [Int.cast_one, div_one, Int.cast_natCast]
  rfl

theorem nonneg_iff (a : Frac) : (0 : Frac) ≤ a ↔ 0 ≤ a.toRat := by
  rw [le_iff, toRat_zero]

theorem le_total_frac (a b : Frac) : a ≤ b ∨ b ≤ a := by
  rw [le_def a b, le_def b a]
  exact le_total _ _

theorem le_trans_frac {a b c : Frac} (h1 : a ≤ b) (h2 : b ≤ c) : a ≤ c := by
  rw [le_iff] at h1 h2 ⊢
  exact le_trans h1 h2

/-- Floor of a `Frac` (`Int.fdiv` rounds toward negative infinity). -/
def floor (a : Frac) : Int := a.num.fdiv a.den

theorem floor_nonneg {a : Frac} (h : 0 ≤ a.toRat) : 0 ≤ a.floor := by
  have hnum : (0 : ℚ) ≤ (a.num : ℚ) := by
    have h2 := mul_nonneg h (den_cast_pos a).le
    rw [toRat, div_mul_cancel₀ _ (den_cast_ne a)] at h2
    exact h2
  have hnum' : 0 ≤ a.num := by exact_mod_cast hnum
  exact Int.fdiv_nonneg hnum' a.dpos.le

end Frac

/-! ## Recall scoring pipeline (scripts/recall.py, lines 61-94, 188-495, 562-825)

The corpus loader is modeled by passing the parsed block list directly (the
block parser lives outside src/). Blocks carry the searchable fields as
strings (a list-valued field is represented by its `" "`-joined text, which
is exactly how `extract_field_tokens` and the excerpt fallback consume it),
the joined `ConstraintSignatures` text, the `Date` field as an optional
parse outcome (`none`: absent or empty; `some none`: present but
unparseable, scoring 0.5; `some (some d)`: parsed, `d` days old at query
time, absorbing the `datetime.now()` reading), plus Status, Priority, and
the source locator.

Three source ingredients are abstracted as parameters: `idf` stands for
`math.log((N - df + 0.5)/(df + 0.5) + 1)` as a function of `N` and `df`
(always positive, since the argument of `log` exceeds 1 whenever
`df ≤ N`; theorems assume only `0 ≤ idf`); `qtype` stands for the outcome
of `detect_query_type` (theorems quantify over all four categories); and
the adjacency function stands for the graph `build_xref_graph` returns.
`effective_limit` (line 590) is computed but never used in the source; the
final truncation uses `limit` itself, as here. -/

/-- The indexed fields, in source order (`SEARCH_FIELDS`). -/
def SEARCH_FIELDS : List String :=
  ["Statement", "Title", "Summary", "Description", "Context",
   "Rationale", "Tags", "Keywords", "Name", "Purpose",
   "RootCause", "Fix", "Prevention", "ProposedFix"]

/-- The BM25F field weight table (`FIELD_WEIGHTS`). -/
def FIELD_WEIGHTS : List (String × Frac) :=
  [("Statement", 3), ("Title", 5/2), ("Name", 2),
   ("Summary", 3/2), ("Description", 6/5), ("Purpose", 6/5),
   ("RootCause", 6/5), ("Fix", 6/5), ("Prevention", 1),
   ("Tags", 4/5), ("Keywords", 4/5),
   ("Context", 1/2), ("Rationale", 1/2), ("ProposedFix", 1/2),
   ("History", 3/10)]

/-- `FIELD_WEIGHTS.get(field, 1.0)`. -/
def fieldWeight (f : String) : Frac :=
  ((List.find? (fun p => p.1 == f) FIELD_WEIGHTS).map (·.2)).getD 1

/-- Term-frequency saturation constant `BM25_K1`. -/
def BM25_K1 : Frac := 6/5

/-- Length-normalization constant `BM25_B`. -/
def BM25_B : Frac := 3/4

/-- A parsed corpus block as the scorer consumes it. -/
structure Block where
  id : List Char
  fields : List (String × List Char)
  sigText : List Char
  dateField : Option (Option Int)
  status : String
  priority : String
  sourceFile : String
  line : Nat

/-- A reported hit. -/
structure Hit where
  id : List Char
  btype : String
  score : Frac
  excerpt : List Char
  file : String
  line : Nat
  status : String
  viaGraph : Bool

/-- Look up a field's text on a block. -/
def lookupField (b : Block) (f : String) : Option (List Char) :=
  (List.find? (fun p => p.1 == f) b.fields).map (·.2)

/-- `extract_field_tokens`: the synthetic `_id` entry (whenever the id is
non-empty), then each searchable field with a non-empty token list, then
the synthetic `_sig` entry. -/
def fieldTokens (b : Block) : List (String × List (List Char)) :=
  (if b.id.isEmpty then [] else [("_id", tokenize b.id)]) ++
  (SEARCH_FIELDS.filterMap fun f =>
    match lookupField b f with
    | some v =>
      let ts := tokenize v
      if ts.isEmpty then none else some (f, ts)
    | none => none) ++
  (let ts := tokenize b.sigText
   if ts.isEmpty then [] else [("_sig", ts)])

/-- Weighted document length: `Σ len(tokens) · w(field)`. -/
def blockWdl (ft : List (String × List (List Char))) : Frac :=
  ft.foldl (fun a p => a + (p.2.length : Frac) * fieldWeight p.1) 0

/-- All of a block's tokens in field order (the `flat` list). -/
def blockFlat (ft : List (String × List (List Char))) : List (List Char) :=
  ft.flatMap (·.2)

/-- Field-weighted term frequency of `t` (`weighted_tf[t]`). -/
def weightedTf (ft : List (String × List (List Char))) (t : List Char) : Frac :=
  ft.foldl (fun a p => a + (p.2.count t : Frac) * fieldWeight p.1) 0

/-- Document frequency: in how many blocks `t` occurs in any field. -/
def dfCount (fts : List (List (String × List (List Char)))) (t : List Char) : Nat :=
  (fts.filter (fun ft => (blockFlat ft).contains t)).length

/-- The BM25F sum over the query tokens (`qt in weighted_tf` is `wtf > 0`
because all field weights are positive). -/
def bm25Score (idf : Nat → Nat → Frac) (N : Nat)
    (fts : List (List (String × List (List Char)))) (avgWdl : Frac)
    (qts : List (List Char)) (ft : List (String × List (List Char))) : Frac :=
  qts.foldl (fun s qt =>
    let wtf := weightedTf ft qt
    if 0 < wtf then
      s + idf N (dfCount fts qt) * (wtf * (BM25_K1 + 1)) /
        (wtf + BM25_K1 * (1 - BM25_B + BM25_B * blockWdl ft / avgWdl))
    else s) 0

/-- Adjacent token pairs (`get_bigrams`, list form of the set). -/
def bigrams (ts : List (List Char)) : List (List Char × List Char) :=
  ts.zip ts.tail

/-- Number of distinct shared bigrams (`len(set(qb) & set(db))`). -/
def bigramMatches (qb db : List (List Char × List Char)) : Nat :=
  (qb.dedup.filter (fun p => db.contains p)).length

/-- Sentence splitting `re.split(r"(?<=[.!?])\s+", text)`: split at each
maximal whitespace run whose first character is preceded by `.`, `!` or
`?`, consuming the run. -/
def splitSentGo : List Char → List Char → List (List Char)
  | [], acc => [acc.reverse]
  | c :: cs, acc =>
    if isPySpace c &&
        (match acc with
         | p :: _ => p == '.' || p == '!' || p == '?'
         | [] => false) then
      acc.reverse :: splitSentGo (cs.dropWhile isPySpace) []
    else
      splitSentGo cs (c :: acc)
  termination_by l _ => l.length
  decreasing_by
    · simp only [List.length_cons]
      exact Nat.lt_succ_of_le (List.dropWhile_sublist _).length_le
    · simp

/-- The sentence list of `chunk_text`: strip, split, drop blank pieces. -/
def splitSentences (text : List Char) : List (List Char) :=
  (splitSentGo (stripChars isPySpace text) []).filter
    (fun s => !(s.all isPySpace))

/-- The chunk windows: three sentences per chunk, step two, emitting each
joined window (when non-blank) and stopping once a window reaches the end. -/
def chunksGo (ss : List (List Char)) : List (List Char) :=
  let w := joinSpace (ss.take 3)
  let head := if w.all isPySpace then [] else [w]
  if h : ss.length ≤ 3 then head
  else head ++ chunksGo (ss.drop 2)
  termination_by ss.length
  decreasing_by
    simp only [List.length_drop]
    omega

/-- `chunk_text` with the default chunk size 3 and overlap 1. -/
def chunk_text (text : List Char) : List (List Char) :=
  let sentences := splitSentences text
  if sentences.length ≤ 3 then [text]
  else
    let cs := chunksGo sentences
    if cs.isEmpty then [text] else cs

/-- Per-chunk BM25 with the chunk's own token counts and length
(`max(avg_wdl, 1)` in the denominator). -/
def chunkScore (idf : Nat → Nat → Frac) (N : Nat)
    (fts : List (List (String × List (List Char)))) (avgWdl : Frac)
    (qts : List (List Char)) (chunk : List Char) : Frac :=
  let ctokens := tokenize chunk
  qts.foldl (fun s qt =>
    let freq : Frac := ctokens.count qt
    if 0 < freq then
      s + idf N (dfCount fts qt) * freq * (BM25_K1 + 1) /
        (freq + BM25_K1 *
          (1 - BM25_B + BM25_B * (ctokens.length : Frac) / max avgWdl 1))
    else s) 0

/-- `date_score`: 0.5 without a parseable date, 1.0 for today or newer,
otherwise `max(0.1, 1 - days_old/365)`. -/
def date_score (b : Block) : Frac :=
  match b.dateField with
  | none => 1/2
  | some none => 1/2
  | some (some daysOld) =>
    if daysOld ≤ 0 then 1 else max (1/10) (1 - (daysOld : Frac) / 365)

/-- The four query categories `detect_query_type` can return. -/
inductive QueryType
  | temporal
  | adversarial
  | multihop
  | singlehop

/-- `recency_weight` from the query-type parameter table. -/
def recencyWeight : QueryType → Frac
  | .temporal => 3/5
  | _ => 3/10

/-- `date_boost` from the query-type parameter table. -/
def dateBoost : QueryType → Frac
  | .temporal => 2
  | _ => 1

/-- `graph_boost_override` from the query-type parameter table. -/
def graphOverride : QueryType → Bool
  | .multihop => true
  | _ => false

/-- `extra_limit_factor` from the query-type parameter table (computed as
`effective_limit` in the source but never used afterwards). -/
def extraLimitFactor : QueryType → Frac
  | .temporal => 3/2
  | .multihop => 2
  | _ => 1

/-- The domain synonym table `_QUERY_EXPANSIONS`. -/
def QUERY_EXPANSIONS : List (List Char × List (List Char)) :=
  [("auth".data, ["authentication", "login", "oauth", "jwt", "session"].map String.data),
   ("authentication".data, ["auth", "login", "oauth", "jwt"].map String.data),
   ("db".data, ["database", "postgresql", "mysql", "sqlite", "sql"].map String.data),
   ("database".data, ["db", "postgresql", "mysql", "sqlite", "sql"].map String.data),
   ("api".data, ["endpoint", "rest", "graphql", "route", "handler"].map String.data),
   ("deploy".data, ["deployment", "ci", "cd", "pipeline", "release"].map String.data),
   ("deployment".data, ["deploy", "ci", "cd", "pipeline", "release"].map String.data),
   ("bug".data, ["error", "issue", "defect", "fix", "regression"].map String.data),
   ("error".data, ["bug", "exception", "failure", "crash"].map String.data),
   ("test".data, ["testing", "pytest", "unittest", "spec", "coverage"].map String.data),
   ("security".data, ["vulnerability", "auth", "encryption", "xss", "injection"].map String.data),
   ("perf".data, ["performance", "latency", "throughput", "optimization"].map String.data),
   ("performance".data, ["perf", "latency", "throughput", "optimization", "speed"].map String.data),
   ("config".data, ["configuration", "settings", "env", "environment"].map String.data),
   ("infra".data, ["infrastructure", "server", "cloud", "devops"].map String.data)]

/-- One synonym step of `expand_query`: append the stemmed synonym when it
is new and the budget `len(tokens) + 3` is not exhausted. State is
`(expanded, added)`. -/
def expandStep (n0 : Nat) (st : List (List Char) × List (List Char))
    (syn : List Char) : List (List Char) × List (List Char) :=
  let stemmed := stem syn
  if !st.2.contains stemmed && st.1.length < n0 + 3 then
    (st.1 ++ [stemmed], st.2 ++ [stemmed])
  else st

/-- One lookup step of `expand_query` (a token or its stem). -/
def expandLookupStep (n0 : Nat) (st : List (List Char) × List (List Char))
    (lu : List Char) : List (List Char) × List (List Char) :=
  match (List.find? (fun p => p.1 == lu) QUERY_EXPANSIONS).map (·.2) with
  | some syns => syns.foldl (expandStep n0) st
  | none => st

/-- `expand_query` with the default `max_expansions = 3`. -/
def expand_query (tokens : List (List Char)) : List (List Char) :=
  (tokens.foldl
    (fun st token =>
      expandLookupStep tokens.length
        (expandLookupStep tokens.length st token) (stem token))
    (tokens, tokens)).1

/-- The excerpt source fields, in order. -/
def EXCERPT_FIELDS : List String :=
  ["Statement", "Title", "Summary", "Description", "Name", "Context"]

/-- `get_excerpt`: first non-empty excerpt field truncated to 120
characters, else the block id, else `?`. -/
def get_excerpt (b : Block) : List Char :=
  match EXCERPT_FIELDS.findSome? (fun f =>
    match lookupField b f with
    | some v => if v.isEmpty then none else some v
    | none => none) with
  | some v => v.take 120
  | none => if b.id.isEmpty then "?".data else b.id

/-- The id-prefix table of `get_block_type`, in source order. -/
def TYPE_PREFIXES : List (String × String) :=
  [("D-", "decision"), ("T-", "task"), ("PRJ-", "project"),
   ("PER-", "person"), ("TOOL-", "tool"), ("INC-", "incident"),
   ("C-", "contradiction"), ("DREF-", "drift"), ("SIG-", "signal"),
   ("P-", "proposal"), ("I-", "impact")]

/-- `get_block_type`: infer the hit type from the id prefix. -/
def get_block_type (bid : List Char) : String :=
  match List.find? (fun p => p.1.data.isPrefixOf bid) TYPE_PREFIXES with
  | some p => p.2
  | none => "unknown"

/-- Round half-to-even on an integer boundary (Python `round`). -/
def roundHalfEven (q : Frac) : Int :=
  let f := q.floor
  let r := q - (f : Frac)
  if r < (1 : Frac)/2 then f
  else if (1 : Frac)/2 < r then f + 1
  else if f % 2 = 0 then f else f + 1

/-- `round(score, 4)`. -/
def round4 (q : Frac) : Frac := ((roundHalfEven (q * 10000) : Int) : Frac) / 10000

/-- Modelled from the spec: `get_active` of the block parser (which is not
under src/) keeps blocks whose Status is active, todo, or doing. -/
def get_active (blocks : List Block) : List Block :=
  blocks.filter (fun b =>
    b.status == "active" || b.status == "todo" || b.status == "doing")

/-- `block.get("Statement", "") or block.get("Title", "") or ""`. -/
def primaryText (b : Block) : List Char :=
  let s := (lookupField b "Statement").getD []
  if !s.isEmpty then s else (lookupField b "Title").getD []

/-- Bigram phrase boost: `score *= 1 + 0.25 · m` when the query has bigrams
and `m > 0` of them occur in the block. -/
def bigramStage (qb : List (List Char × List Char))
    (flat : List (List Char)) (s : Frac) : Frac :=
  if qb.isEmpty then s
  else
    let m := bigramMatches qb (bigrams flat)
    if 0 < m then s * (1 + (1/4) * (m : Frac)) else s

/-- Chunk boost: for a primary text over 200 characters with at least two
chunks, blend `0.6 · best + 0.4 · score` when the best chunk beats the
block score. -/
def chunkStage (idf : Nat → Nat → Frac) (N : Nat)
    (fts : List (List (String × List (List Char)))) (avgWdl : Frac)
    (qts : List (List Char)) (b : Block) (s : Frac) : Frac :=
  if 200 < (primaryText b).length then
    let chunks := chunk_text (primaryText b)
    if 1 < chunks.length then
      let best := chunks.foldl
        (fun m c => max m (chunkScore idf N fts avgWdl qts c)) 0
      if s < best then (3/5) * best + (2/5) * s else s
    else s
  else s

/-- Recency multiplier `1 - rw + rw · date_score`. -/
def recencyFactor (qtype : QueryType) (b : Block) : Frac :=
  1 - recencyWeight qtype + recencyWeight qtype * date_score b

/-- Temporal date boost for blocks that carry a Date value. -/
def dateStage (qtype : QueryType) (b : Block) (s : Frac) : Frac :=
  if 1 < dateBoost qtype && b.dateField.isSome then s * dateBoost qtype else s

/-- Status multiplier: active 1.2, todo/doing 1.1. -/
def statusStage (b : Block) (s : Frac) : Frac :=
  if b.status == "active" then s * (6/5)
  else if b.status == "todo" || b.status == "doing" then s * (11/10)
  else s

/-- Priority multiplier: P0/P1 1.1. -/
def priorityStage (b : Block) (s : Frac) : Frac :=
  if b.priority == "P0" || b.priority == "P1" then s * (11/10) else s

/-- The boost cascade applied to a block's BM25F score, in source order. -/
def rawScore (idf : Nat → Nat → Frac) (qtype : QueryType) (N : Nat)
    (fts : List (List (String × List (List Char)))) (avgWdl : Frac)
    (qts : List (List Char)) (qb : List (List Char × List Char))
    (b : Block) (ft : List (String × List (List Char))) : Frac :=
  priorityStage b (statusStage b (dateStage qtype b
    (chunkStage idf N fts avgWdl qts b
      (bigramStage qb (blockFlat ft) (bm25Score idf N fts avgWdl qts ft)) *
        recencyFactor qtype b)))

/-- Score one block into a hit: skip token-free blocks and blocks whose
BM25F score is not positive, otherwise assemble the hit with the rounded
boosted score. -/
def scoreBlock (idf : Nat → Nat → Frac) (qtype : QueryType) (N : Nat)
    (fts : List (List (String × List (List Char)))) (avgWdl : Frac)
    (qts : List (List Char)) (qb : List (List Char × List Char))
    (b : Block) (ft : List (String × List (List Char))) : Option Hit :=
  if (blockFlat ft).isEmpty then none
  else if bm25Score idf N fts avgWdl qts ft ≤ 0 then none
  else some ⟨b.id, get_block_type b.id,
    round4 (rawScore idf qtype N fts avgWdl qts qb b ft),
    get_excerpt b, b.sourceFile, b.line, b.status, false⟩

/-- The BM25F scoring pass over the loaded blocks. -/
def recallScored (idf : Nat → Nat → Frac) (qtype : QueryType)
    (blocks : List Block) (qts : List (List Char)) : List Hit :=
  let fts := blocks.map fieldTokens
  let N := blocks.length
  let totalWdl := fts.foldl (fun a ft => a + blockWdl ft) 0
  let avgWdl := if 0 < N then totalWdl / (N : Frac) else 1
  let qb := qts.zip qts.tail
  (blocks.zip fts).filterMap
    (fun p => scoreBlock idf qtype N fts avgWdl qts qb p.1 p.2)

/-- Association-list read with default 0 (`neighbor_scores.get(n, 0)`). -/
def dictGetQ (m : List (List Char × Frac)) (k : List Char) : Frac :=
  ((List.find? (fun p => p.1 == k) m).map (·.2)).getD 0

/-- Key membership (`k in d`). -/
def dictHas (m : List (List Char × Frac)) (k : List Char) : Bool :=
  m.any (fun p => p.1 == k)

/-- Association-list write with dict insertion-order semantics: an existing
key keeps its position, a new key is appended. -/
def dictSetQ (m : List (List Char × Frac)) (k : List Char) (v : Frac) :
    List (List Char × Frac) :=
  if dictHas m k then m.map (fun p => if p.1 == k then (k, v) else p)
  else m ++ [(k, v)]

/-- `GRAPH_BOOST_FACTOR`. -/
def GRAPH_BOOST_FACTOR : Frac := 3/10

/-- The decay schedule `[GRAPH_BOOST_FACTOR, GRAPH_BOOST_FACTOR * 0.33]`
that the two-hop loop enumerates. -/
def graphDecays : List Frac := [GRAPH_BOOST_FACTOR, GRAPH_BOOST_FACTOR * (33/100)]

/-- The inner accumulation of the graph loop: a neighbor gains
`seed.score · decay`, halved when the neighbor is already ranked. -/
def neighborUpdate (scoreById ns : List (List Char × Frac))
    (seedScore decay : Frac) (n : List Char) : List (List Char × Frac) :=
  let boost := seedScore * decay
  if !dictHas scoreById n then dictSetQ ns n (dictGetQ ns n + boost)
  else dictSetQ ns n (dictGetQ ns n + boost * (1/2))

/-- One hop: fold the update over every seed and each of its neighbors. -/
def hopStep (graph : List Char → List (List Char))
    (scoreById : List (List Char × Frac)) (seeds : List (List Char × Frac))
    (decay : Frac) (ns : List (List Char × Frac)) : List (List Char × Frac) :=
  seeds.foldl
    (fun ns r => (graph r.1).foldl
      (fun ns n => neighborUpdate scoreById ns r.2 decay n) ns) ns

/-- The accumulated neighbor scores of the two-hop traversal: hop 0 seeds
from the ranked results with the first decay, hop 1 seeds from the newly
discovered neighbors with the second decay. -/
def graphNeighborScores (graph : List Char → List (List Char))
    (results : List Hit) : List (List Char × Frac) :=
  let sbi := results.foldl (fun m r => dictSetQ m r.id r.score) []
  let ns0 := hopStep graph sbi (results.map fun r => (r.id, r.score))
    (graphDecays.getD 0 0) []
  let seeds1 := ns0.filter fun p => !dictHas sbi p.1
  hopStep graph sbi seeds1 (graphDecays.getD 1 0) ns0

/-- Apply the neighbor scores: boost ranked hits in place and append the
newly discovered neighbors (`block_by_id` keeps the last block per id). -/
def graphApply (graph : List Char → List (List Char)) (blocks : List Block)
    (results : List Hit) : List Hit :=
  let sbi := results.foldl (fun m r => dictSetQ m r.id r.score) []
  let ns := graphNeighborScores graph results
  let boosted := results.map (fun r =>
    if dictHas ns r.id then
      ⟨r.id, r.btype, round4 (r.score + dictGetQ ns r.id), r.excerpt,
        r.file, r.line, r.status, true⟩
    else r)
  let newHits := ns.filterMap (fun p =>
    if !dictHas sbi p.1 then
      match List.find? (fun b => b.id == p.1) blocks.reverse with
      | some b => some ⟨p.1, get_block_type p.1, round4 p.2, get_excerpt b,
          b.sourceFile, b.line, b.status, true⟩
      | none => none
    else none)
  boosted ++ newHits

/-- The sort key relation: descending score (`sort(key=score, reverse=True)`,
which is stable, as is insertion sort with this relation). -/
def hitGe (a b : Hit) : Prop := b.score ≤ a.score

instance : DecidableRel hitGe := fun a b => inferInstanceAs (Decidable (_ ≤ _))

instance : IsTotal Hit hitGe := ⟨fun a b => Frac.le_total_frac b.score a.score⟩

instance : IsTrans Hit hitGe := ⟨fun _ _ _ h1 h2 => Frac.le_trans_frac h2 h1⟩

/-- The `recall` search pipeline on loaded blocks (named `recallSearch`
since `recall` is reserved): tokenize and expand the
query, force graph boosting for multi-hop queries, filter to active blocks
on request, score, optionally graph-boost, sort by score descending, and
return the top `limit`. -/
def recallSearch (idf : Nat → Nat → Frac) (qtype : QueryType)
    (graph : List Char → List (List Char)) (blocks : List Block)
    (query : List Char) (limit : Nat) (activeOnly graphBoost : Bool) :
    List Hit :=
  let qt0 := tokenize query
  if qt0.isEmpty then []
  else
    let qts := expand_query qt0
    let gb := graphBoost || graphOverride qtype
    let bs := if activeOnly then get_active blocks else blocks
    if bs.isEmpty then []
    else
      let results := recallScored idf qtype bs qts
      let results2 :=
        if gb && !results.isEmpty then graphApply graph bs results
        else results
      (List.insertionSort hitGe results2).take limit

/-! ## Association-list facts for the graph booster -/

theorem dictGetQ_dictSetQ_self (m : List (List Char × Frac)) (k : List Char)
    (v : Frac) : dictGetQ (dictSetQ m k v) k = v := by
  induction m with
  | nil => simp [dictSetQ, dictHas, dictGetQ, List.find?]
  | cons p ps ih =>
    by_cases hp : (p.1 == k) = true
    · have hhas : dictHas (p :: ps) k = true := by
        unfold dictHas
        simp [List.any_cons, hp]
      unfold dictSetQ
      rw [if_pos hhas]
      unfold dictGetQ
      simp [List.find?, hp]
    · cases hps : dictHas ps k with
      | true =>
        have hhas : dictHas (p :: ps) k = true := by
          unfold dictHas at hps ⊢
          simp [List.any_cons, hps]
        have ihm := ih
        unfold dictSetQ at ihm ⊢
        rw [if_pos hhas]
        rw [if_pos hps] at ihm
        unfold dictGetQ at ihm ⊢
        simpa [List.find?, hp] using ihm
      | false =>
        have hhas : dictHas (p :: ps) k = false := by
          unfold dictHas at hps ⊢
          simp [List.any_cons, hps, hp]
        have ihm := ih
        unfold dictSetQ at ihm ⊢
        rw [if_neg (by simp [hhas])]
        rw [if_neg (by simp [hps])] at ihm
        unfold dictGetQ at ihm ⊢
        simpa [List.cons_append, List.find?, hp] using ihm

/-- C6 amended. The decay schedule of the two-hop propagation is
`[0.3, 0.3 · 0.33] = [0.3, 0.099]` — not `[0.3, 0.1]` — and for each seed
with score `s` and each of its neighbors `n`, the accumulator gains
`s · decay` when `n` is not yet ranked and `s · decay · 0.5` when it is. -/
theorem graph_decay_schedule_and_update :
    graphDecays = [(3 : Frac)/10, (3 : Frac)/10 * (33/100)] ∧
    ((3 : Frac)/10 * (33/100)).toRat = 99/1000 ∧
    ∀ (sbi ns : List (List Char × Frac)) (s d : Frac) (n : List Char),
      dictGetQ (neighborUpdate sbi ns s d n) n =
        if dictHas sbi n then dictGetQ ns n + s * d * (1/2)
        else dictGetQ ns n + s * d := by
  refine ⟨rfl, ?_, ?_⟩
  · rw [show (3 : Frac)/10 * (33/100) = (⟨99, 1000, by norm_num⟩ : Frac)
      from rfl, Frac.toRat_mk]
    norm_num
  · intro sbi ns s d n
    unfold neighborUpdate
    by_cases h : dictHas sbi n = true <;>
      simp [h, dictGetQ_dictSetQ_self]

/-! ## Nonnegativity of every reported score -/

theorem foldl_init_le_toRat {α : Type} (step : Frac → α → Frac)
    (h : ∀ (s : Frac) (x : α), s.toRat ≤ (step s x).toRat) :
    ∀ (l : List α) (a : Frac), a.toRat ≤ (l.foldl step a).toRat := by
  intro l
  induction l with
  | nil => intro a; exact le_refl _
  | cons x xs ih => intro a; exact le_trans (h a x) (ih (step a x))

theorem foldl_preserve {α β : Type} (P : β → Prop) (step : β → α → β) :
    ∀ (l : List α), (∀ (b : β) (x : α), x ∈ l → P b → P (step b x)) →
      ∀ (b : β), P b → P (l.foldl step b) := by
  intro l
  induction l with
  | nil => intro _ b hb; exact hb
  | cons x xs ih =>
    intro h b hb
    exact ih (fun b' y hy => h b' y (List.mem_cons_of_mem x hy)) _
      (h b x (List.mem_cons_self x xs) hb)

theorem fieldWeight_nonneg (f : String) : 0 ≤ (fieldWeight f).toRat := by
  rw [← Frac.nonneg_iff]
  unfold fieldWeight
  cases hf : List.find? (fun p => p.1 == f) FIELD_WEIGHTS with
  | none => simp only [Option.map_none', Option.getD_none]; decide
  | some p =>
    have hp : p ∈ FIELD_WEIGHTS := List.mem_of_find?_eq_some hf
    have hall : FIELD_WEIGHTS.all (fun q => decide ((0 : Frac) ≤ q.2)) = true := by
      decide
    simp only [Option.map_some', Option.getD_some]
    exact of_decide_eq_true (List.all_eq_true.mp hall p hp)

theorem blockWdl_nonneg (ft : List (String × List (List Char))) :
    0 ≤ (blockWdl ft).toRat := by
  unfold blockWdl
  have h := foldl_init_le_toRat
    (fun a p => a + (p.2.length : Frac) * fieldWeight p.1) ?_ ft 0
  · rw [Frac.toRat_zero] at h
    exact h
  · intro s x
    rw [Frac.toRat_add, Frac.toRat_mul, Frac.toRat_natCast]
    have := mul_nonneg (Nat.cast_nonneg x.2.length) (fieldWeight_nonneg x.1)
    linarith

theorem weightedTf_nonneg (ft : List (String × List (List Char)))
    (t : List Char) : 0 ≤ (weightedTf ft t).toRat := by
  unfold weightedTf
  have h := foldl_init_le_toRat
    (fun a p => a + (p.2.count t : Frac) * fieldWeight p.1) ?_ ft 0
  · rw [Frac.toRat_zero] at h
    exact h
  · intro s x
    rw [Frac.toRat_add, Frac.toRat_mul, Frac.toRat_natCast]
    have := mul_nonneg (Nat.cast_nonneg (x.2.count t)) (fieldWeight_nonneg x.1)
    linarith

theorem BM25_K1_toRat : BM25_K1.toRat = 6/5 := by
  rw [show BM25_K1 = (⟨6, 5, by norm_num⟩ : Frac) from rfl, Frac.toRat_mk]
  norm_num

theorem BM25_B_toRat : BM25_B.toRat = 3/4 := by
  rw [show BM25_B = (⟨3, 4, by norm_num⟩ : Frac) from rfl, Frac.toRat_mk]
  norm_num

theorem bm25Score_nonneg (idf : Nat → Nat → Frac)
    (hidf : ∀ N d, 0 ≤ (idf N d).toRat) (N : Nat)
    (fts : List (List (String × List (List Char)))) (avgWdl : Frac)
    (havg : 0 ≤ avgWdl.toRat) (qts : List (List Char))
    (ft : List (String × List (List Char))) :
    0 ≤ (bm25Score idf N fts avgWdl qts ft).toRat := by
  unfold bm25Score
  have h := foldl_init_le_toRat (fun s qt =>
    if 0 < weightedTf ft qt then
      s + idf N (dfCount fts qt) * (weightedTf ft qt * (BM25_K1 + 1)) /
        (weightedTf ft qt +
          BM25_K1 * (1 - BM25_B + BM25_B * blockWdl ft / avgWdl))
    else s) ?_ qts 0
  · rw [Frac.toRat_zero] at h
    exact h
  · intro s qt
    dsimp only
    split
    · have hterm : 0 ≤ (idf N (dfCount fts qt) *
          (weightedTf ft qt * (BM25_K1 + 1)) /
          (weightedTf ft qt +
            BM25_K1 * (1 - BM25_B + BM25_B * blockWdl ft / avgWdl))).toRat := by
        simp only [Frac.toRat_div, Frac.toRat_mul, Frac.toRat_add,
          Frac.toRat_sub, Frac.toRat_one, Frac.toRat_natCast,
          Frac.toRat_max, Frac.toRat_ofNat_lit, BM25_K1_toRat, BM25_B_toRat]
        apply div_nonneg
        · exact mul_nonneg (hidf _ _)
            (mul_nonneg (weightedTf_nonneg ft qt) (by norm_num))
        · have h1 := weightedTf_nonneg ft qt
          have h2 := div_nonneg (blockWdl_nonneg ft) havg
          have h5 := mul_nonneg (by norm_num : (0:ℚ) ≤ 3/4) h2
          have h6 : (3/4 : ℚ) * (blockWdl ft).toRat / avgWdl.toRat =
              3/4 * ((blockWdl ft).toRat / avgWdl.toRat) :=
            mul_div_assoc _ _ _
          linarith
      rw [Frac.toRat_add]
      linarith
    · exact le_refl _

theorem chunkScore_nonneg (idf : Nat → Nat → Frac)
    (hidf : ∀ N d, 0 ≤ (idf N d).toRat) (N : Nat)
    (fts : List (List (String × List (List Char)))) (avgWdl : Frac)
    (qts : List (List Char)) (chunk : List Char) :
    0 ≤ (chunkScore idf N fts avgWdl qts chunk).toRat := by
  unfold chunkScore
  have h := foldl_init_le_toRat (fun s qt =>
    if 0 < ((tokenize chunk).count qt : Frac) then
      s + idf N (dfCount fts qt) * ((tokenize chunk).count qt : Frac) *
          (BM25_K1 + 1) /
        (((tokenize chunk).count qt : Frac) + BM25_K1 *
          (1 - BM25_B + BM25_B * ((tokenize chunk).length : Frac) /
            max avgWdl 1))
    else s) ?_ qts 0
  · rw [Frac.toRat_zero] at h
    exact h
  · intro s qt
    dsimp only
    split
    · have hterm : 0 ≤ (idf N (dfCount fts qt) *
          ((tokenize chunk).count qt : Frac) * (BM25_K1 + 1) /
          (((tokenize chunk).count qt : Frac) + BM25_K1 *
            (1 - BM25_B + BM25_B * ((tokenize chunk).length : Frac) /
              max avgWdl 1))).toRat := by
        simp only [Frac.toRat_div, Frac.toRat_mul, Frac.toRat_add,
          Frac.toRat_sub, Frac.toRat_one, Frac.toRat_natCast,
          Frac.toRat_max, Frac.toRat_ofNat_lit, BM25_K1_toRat, BM25_B_toRat]
        apply div_nonneg
        · exact mul_nonneg
            (mul_nonneg (hidf _ _) (Nat.cast_nonneg _)) (by norm_num)
        · have h1 : (0:ℚ) ≤ ((tokenize chunk).count qt : ℚ) :=
            Nat.cast_nonneg _
          have h2 : (0:ℚ) ≤ ((tokenize chunk).length : ℚ) :=
            Nat.cast_nonneg _
          have h3 : (0:ℚ) ≤ max avgWdl.toRat 1 :=
            le_trans (by norm_num) (le_max_right _ _)
          have h4 := div_nonneg h2 h3
          have h5 := mul_nonneg (by norm_num : (0:ℚ) ≤ 3/4) h4
          have h6 : (3/4 : ℚ) * ((tokenize chunk).length : ℚ) /
              max avgWdl.toRat 1 =
              3/4 * (((tokenize chunk).length : ℚ) / max avgWdl.toRat 1) :=
            mul_div_assoc _ _ _
          linarith
      rw [Frac.toRat_add]
      linarith
    · exact le_refl _

theorem bigramStage_nonneg (qb : List (List Char × List Char))
    (flat : List (List Char)) (s : Frac) (hs : 0 ≤ s.toRat) :
    0 ≤ (bigramStage qb flat s).toRat := by
  unfold bigramStage
  split
  · exact hs
  · dsimp only
    split
    · rw [Frac.toRat_mul, Frac.toRat_add, Frac.toRat_one, Frac.toRat_mul,
        Frac.toRat_natCast]
      have h1 : (0:ℚ) ≤ 1 + (1/4 : Frac).toRat * (bigramMatches qb (bigrams flat) : ℚ) := by
        have := mul_nonneg (Frac.nonneg_iff (1/4 : Frac) |>.mp (by decide))
          (Nat.cast_nonneg (bigramMatches qb (bigrams flat)))
        linarith
      exact mul_nonneg hs h1
    · exact hs

theorem chunkStage_nonneg (idf : Nat → Nat → Frac)
    (hidf : ∀ N d, 0 ≤ (idf N d).toRat) (N : Nat)
    (fts : List (List (String × List (List Char)))) (avgWdl : Frac)
    (qts : List (List Char)) (b : Block) (s : Frac) (hs : 0 ≤ s.toRat) :
    0 ≤ (chunkStage idf N fts avgWdl qts b s).toRat := by
  unfold chunkStage
  split
  · dsimp only
    split
    · split
      · rw [Frac.toRat_add, Frac.toRat_mul, Frac.toRat_mul]
        have hbest := foldl_init_le_toRat
          (fun m c => max m (chunkScore idf N fts avgWdl qts c)) ?_
          (chunk_text (primaryText b)) 0
        · rw [Frac.toRat_zero] at hbest
          have h35 : (0:ℚ) ≤ ((3:Frac)/5).toRat :=
            (Frac.nonneg_iff _).mp (by decide)
          have h25 : (0:ℚ) ≤ ((2:Frac)/5).toRat :=
            (Frac.nonneg_iff _).mp (by decide)
          have := mul_nonneg h35 hbest
          have := mul_nonneg h25 hs
          linarith
        · intro m c
          rw [Frac.toRat_max]
          exact le_max_left _ _
      · exact hs
    · exact hs
  · exact hs

theorem date_score_bounds (b : Block) :
    1/10 ≤ (date_score b).toRat ∧ (date_score b).toRat ≤ 1 := by
  unfold date_score
  rcases b.dateField with _ | ⟨_ | d⟩
  · simp only [Frac.toRat_div, Frac.toRat_one, Frac.toRat_ofNat_lit]
    norm_num
  · simp only [Frac.toRat_div, Frac.toRat_one, Frac.toRat_ofNat_lit]
    norm_num
  · dsimp only
    split
    · rw [Frac.toRat_one]
      norm_num
    · next hd =>
      have hd' : (0:ℚ) < (d : ℚ) := by exact_mod_cast not_le.mp hd
      simp only [Frac.toRat_max, Frac.toRat_sub, Frac.toRat_div,
        Frac.toRat_one, Frac.toRat_intCast, Frac.toRat_ofNat_lit]
      constructor
      · refine le_trans ?_ (le_max_left _ _)
        norm_num
      · apply max_le
        · norm_num
        · have hpos : (0:ℚ) < (d : ℚ) / ((365 : ℕ) : ℚ) := by positivity
          linarith

theorem recencyFactor_nonneg (qtype : QueryType) (b : Block) :
    0 ≤ (recencyFactor qtype b).toRat := by
  unfold recencyFactor
  have hds := (date_score_bounds b).1
  rcases qtype with _ | _ | _ | _ <;>
  · simp only [recencyWeight, Frac.toRat_add, Frac.toRat_sub, Frac.toRat_one,
      Frac.toRat_mul, Frac.toRat_div, Frac.toRat_ofNat_lit]
    linarith

theorem dateStage_nonneg (qtype : QueryType) (b : Block) (s : Frac)
    (hs : 0 ≤ s.toRat) : 0 ≤ (dateStage qtype b s).toRat := by
  unfold dateStage
  split
  · rw [Frac.toRat_mul]
    refine mul_nonneg hs ?_
    rcases qtype with _ | _ | _ | _ <;>
      simp only [dateBoost, Frac.toRat_one, Frac.toRat_ofNat_lit] <;> norm_num
  · exact hs

theorem statusStage_nonneg (b : Block) (s : Frac) (hs : 0 ≤ s.toRat) :
    0 ≤ (statusStage b s).toRat := by
  unfold statusStage
  split
  · rw [Frac.toRat_mul]
    exact mul_nonneg hs ((Frac.nonneg_iff _).mp (by decide))
  · split
    · rw [Frac.toRat_mul]
      exact mul_nonneg hs ((Frac.nonneg_iff _).mp (by decide))
    · exact hs

theorem priorityStage_nonneg (b : Block) (s : Frac) (hs : 0 ≤ s.toRat) :
    0 ≤ (priorityStage b s).toRat := by
  unfold priorityStage
  split
  · rw [Frac.toRat_mul]
    exact mul_nonneg hs ((Frac.nonneg_iff _).mp (by decide))
  · exact hs

theorem rawScore_nonneg (idf : Nat → Nat → Frac)
    (hidf : ∀ N d, 0 ≤ (idf N d).toRat) (qtype : QueryType) (N : Nat)
    (fts : List (List (String × List (List Char)))) (avgWdl : Frac)
    (havg : 0 ≤ avgWdl.toRat) (qts : List (List Char))
    (qb : List (List Char × List Char)) (b : Block)
    (ft : List (String × List (List Char))) :
    0 ≤ (rawScore idf qtype N fts avgWdl qts qb b ft).toRat := by
  unfold rawScore
  apply priorityStage_nonneg
  apply statusStage_nonneg
  apply dateStage_nonneg
  rw [Frac.toRat_mul]
  exact mul_nonneg
    (chunkStage_nonneg idf hidf N fts avgWdl qts b _
      (bigramStage_nonneg qb _ _ (bm25Score_nonneg idf hidf N fts avgWdl havg qts ft)))
    (recencyFactor_nonneg qtype b)

theorem roundHalfEven_nonneg {q : Frac} (h : 0 ≤ q.toRat) :
    0 ≤ roundHalfEven q := by
  have hf := Frac.floor_nonneg h
  unfold roundHalfEven
  dsimp only
  split
  · exact hf
  · split
    · omega
    · split <;> omega

theorem round4_nonneg {q : Frac} (h : 0 ≤ q.toRat) : 0 ≤ (round4 q).toRat := by
  unfold round4
  rw [Frac.toRat_div, Frac.toRat_intCast, Frac.toRat_ofNat_lit]
  have hq : 0 ≤ (q * 10000).toRat := by
    rw [Frac.toRat_mul, Frac.toRat_ofNat_lit]
    exact mul_nonneg h (by norm_num)
  have := roundHalfEven_nonneg hq
  apply div_nonneg
  · exact_mod_cast this
  · norm_num

theorem scoreBlock_nonneg (idf : Nat → Nat → Frac)
    (hidf : ∀ N d, 0 ≤ (idf N d).toRat) (qtype : QueryType) (N : Nat)
    (fts : List (List (String × List (List Char)))) (avgWdl : Frac)
    (havg : 0 ≤ avgWdl.toRat) (qts : List (List Char))
    (qb : List (List Char × List Char)) (b : Block)
    (ft : List (String × List (List Char))) (h : Hit)
    (hsome : scoreBlock idf qtype N fts avgWdl qts qb b ft = some h) :
    0 ≤ h.score.toRat := by
  unfold scoreBlock at hsome
  split at hsome
  · exact absurd hsome (by simp)
  · split at hsome
    · exact absurd hsome (by simp)
    · rcases Option.some_inj.mp hsome with rfl
      exact round4_nonneg (rawScore_nonneg idf hidf qtype N fts avgWdl havg qts qb b ft)

theorem recallScored_nonneg (idf : Nat → Nat → Frac)
    (hidf : ∀ N d, 0 ≤ (idf N d).toRat) (qtype : QueryType)
    (blocks : List Block) (qts : List (List Char)) :
    ∀ h ∈ recallScored idf qtype blocks qts, 0 ≤ h.score.toRat := by
  intro h hmem
  unfold recallScored at hmem
  rw [List.mem_filterMap] at hmem
  obtain ⟨p, _, hp⟩ := hmem
  have havg : 0 ≤ (if 0 < blocks.length then
      ((blocks.map fieldTokens).foldl (fun a ft => a + blockWdl ft) 0) /
        (blocks.length : Frac)
    else 1).toRat := by
    split
    · rw [Frac.toRat_div, Frac.toRat_natCast]
      apply div_nonneg
      · have := foldl_init_le_toRat (fun a ft => a + blockWdl ft) ?_
          (blocks.map fieldTokens) 0
        · rw [Frac.toRat_zero] at this
          exact this
        · intro s x
          rw [Frac.toRat_add]
          have := blockWdl_nonneg x
          linarith
      · exact Nat.cast_nonneg _
    · rw [Frac.toRat_one]
      norm_num
  exact scoreBlock_nonneg idf hidf qtype _ _ _ havg _ _ _ _ h hp

theorem dictGetQ_nonneg {m : List (List Char × Frac)}
    (hm : ∀ p ∈ m, 0 ≤ p.2.toRat) (k : List Char) :
    0 ≤ (dictGetQ m k).toRat := by
  unfold dictGetQ
  cases hf : List.find? (fun p => p.1 == k) m with
  | none =>
    simp only [Option.map_none', Option.getD_none]
    rw [Frac.toRat_zero]
  | some p =>
    simp only [Option.map_some', Option.getD_some]
    exact hm p (List.mem_of_find?_eq_some hf)

theorem dictSetQ_nonneg {m : List (List Char × Frac)}
    (hm : ∀ p ∈ m, 0 ≤ p.2.toRat) (k : List Char) {v : Frac}
    (hv : 0 ≤ v.toRat) : ∀ p ∈ dictSetQ m k v, 0 ≤ p.2.toRat := by
  intro p hp
  unfold dictSetQ at hp
  split at hp
  · rcases List.mem_map.mp hp with ⟨q, hq, hfq⟩
    rw [← hfq]
    by_cases hqk : (q.1 == k) = true
    · rw [if_pos hqk]
      exact hv
    · rw [if_neg hqk]
      exact hm q hq
  · rcases List.mem_append.mp hp with h1 | h1
    · exact hm p h1
    · rcases List.mem_singleton.mp h1 with rfl
      exact hv

theorem neighborUpdate_nonneg (sbi : List (List Char × Frac))
    {ns : List (List Char × Frac)} (hns : ∀ p ∈ ns, 0 ≤ p.2.toRat)
    {s d : Frac} (hs : 0 ≤ s.toRat) (hd : 0 ≤ d.toRat) (n : List Char) :
    ∀ p ∈ neighborUpdate sbi ns s d n, 0 ≤ p.2.toRat := by
  unfold neighborUpdate
  dsimp only
  have hboost : 0 ≤ (s * d).toRat := by
    rw [Frac.toRat_mul]
    exact mul_nonneg hs hd
  have hget := dictGetQ_nonneg hns n
  split
  · refine dictSetQ_nonneg hns n ?_
    rw [Frac.toRat_add]
    linarith
  · refine dictSetQ_nonneg hns n ?_
    rw [Frac.toRat_add, Frac.toRat_mul]
    have h12 : 0 ≤ ((1 : Frac)/2).toRat := (Frac.nonneg_iff _).mp (by decide)
    have := mul_nonneg hboost h12
    linarith

theorem hopStep_nonneg (graph : List Char → List (List Char))
    (sbi : List (List Char × Frac)) {seeds : List (List Char × Frac)}
    (hseeds : ∀ p ∈ seeds, 0 ≤ p.2.toRat) {decay : Frac}
    (hd : 0 ≤ decay.toRat) {ns : List (List Char × Frac)}
    (hns : ∀ p ∈ ns, 0 ≤ p.2.toRat) :
    ∀ p ∈ hopStep graph sbi seeds decay ns, 0 ≤ p.2.toRat := by
  unfold hopStep
  refine foldl_preserve (fun m => ∀ p ∈ m, 0 ≤ p.2.toRat) _ seeds ?_ ns hns
  intro m r hr hm
  refine foldl_preserve (fun m' => ∀ p ∈ m', 0 ≤ p.2.toRat) _ (graph r.1)
    ?_ m hm
  intro m' nb _ hm'
  exact neighborUpdate_nonneg sbi hm' (hseeds r hr) hd nb

theorem graphNeighborScores_nonneg (graph : List Char → List (List Char))
    (results : List Hit) (hres : ∀ h ∈ results, 0 ≤ h.score.toRat) :
    ∀ p ∈ graphNeighborScores graph results, 0 ≤ p.2.toRat := by
  have h0 : ∀ p ∈ hopStep graph
      (results.foldl (fun m r => dictSetQ m r.id r.score) [])
      (results.map fun r => (r.id, r.score)) (graphDecays.getD 0 0) [],
      0 ≤ p.2.toRat := by
    refine hopStep_nonneg _ _ ?_ ?_ ?_
    · intro p hp
      rcases List.mem_map.mp hp with ⟨r, hr, rfl⟩
      exact hres r hr
    · exact (Frac.nonneg_iff _).mp (by decide)
    · intro p hp
      simp at hp
  unfold graphNeighborScores
  dsimp only
  refine hopStep_nonneg _ _ ?_ ?_ h0
  · intro q hq
    exact h0 q (List.mem_of_mem_filter hq)
  · exact (Frac.nonneg_iff _).mp (by decide)

theorem graphApply_nonneg (graph : List Char → List (List Char))
    (blocks : List Block) (results : List Hit)
    (hres : ∀ h ∈ results, 0 ≤ h.score.toRat) :
    ∀ h ∈ graphApply graph blocks results, 0 ≤ h.score.toRat := by
  intro h hmem
  unfold graphApply at hmem
  dsimp only at hmem
  have hns := graphNeighborScores_nonneg graph results hres
  rcases List.mem_append.mp hmem with h1 | h1
  · rcases List.mem_map.mp h1 with ⟨r, hr, hfr⟩
    rw [← hfr]
    split
    · show 0 ≤ (round4 (r.score + dictGetQ (graphNeighborScores graph results) r.id)).toRat
      refine round4_nonneg ?_
      rw [Frac.toRat_add]
      have := dictGetQ_nonneg hns r.id
      have := hres r hr
      linarith
    · exact hres r hr
  · rcases List.mem_filterMap.mp h1 with ⟨p, hp, hfp⟩
    split at hfp
    · split at hfp
      · rcases Option.some_inj.mp hfp with rfl
        exact round4_nonneg (hns p hp)
      · exact absurd hfp (by simp)
    · exact absurd hfp (by simp)

/-- C8 amended. For every query, corpus, limit, and flags — and every
nonnegative `idf`, every query classification, and every cross-reference
adjacency — each hit reported by the recall pipeline has a nonnegative
score, the hit list is sorted by score in non-increasing order (strictness
fails on ties; see the counterexample), and at most `limit` hits are
returned. -/
theorem sorted_take_props (l : List Hit) (limit : Nat)
    (hl : ∀ h ∈ l, 0 ≤ h.score.toRat) :
    (∀ h ∈ (List.insertionSort hitGe l).take limit, 0 ≤ h.score.toRat) ∧
    List.Pairwise (fun a b : Hit => b.score.toRat ≤ a.score.toRat)
      ((List.insertionSort hitGe l).take limit) ∧
    ((List.insertionSort hitGe l).take limit).length ≤ limit := by
  refine ⟨?_, ?_, ?_⟩
  · intro h hh
    have hmem : h ∈ List.insertionSort hitGe l := List.mem_of_mem_take hh
    exact hl h ((List.perm_insertionSort hitGe l).mem_iff.mp hmem)
  · have hsorted : List.Pairwise hitGe (List.insertionSort hitGe l) :=
      List.sorted_insertionSort hitGe l
    have htake := hsorted.sublist (List.take_sublist limit _)
    exact htake.imp (fun hge => (Frac.le_iff _ _).mp hge)
  · rw [List.length_take]
    exact min_le_left _ _

theorem recallSearch_nonneg_sorted_limited (idf : Nat → Nat → Frac)
    (hidf : ∀ N d, 0 ≤ (idf N d).toRat) (qtype : QueryType)
    (graph : List Char → List (List Char)) (blocks : List Block)
    (query : List Char) (limit : Nat) (activeOnly graphBoost : Bool) :
    (∀ h ∈ recallSearch idf qtype graph blocks query limit activeOnly
      graphBoost, 0 ≤ h.score.toRat) ∧
    List.Pairwise (fun a b : Hit => b.score.toRat ≤ a.score.toRat)
      (recallSearch idf qtype graph blocks query limit activeOnly graphBoost) ∧
    (recallSearch idf qtype graph blocks query limit activeOnly
      graphBoost).length ≤ limit := by
  by_cases hq : (tokenize query).isEmpty = true
  · have he : recallSearch idf qtype graph blocks query limit activeOnly
        graphBoost = [] := by
      unfold recallSearch
      rw [if_pos hq]
    rw [he]
    exact ⟨fun h hh => absurd hh (List.not_mem_nil h), List.Pairwise.nil,
      by simp⟩
  · by_cases hbs :
      (if activeOnly then get_active blocks else blocks).isEmpty = true
    · have he : recallSearch idf qtype graph blocks query limit activeOnly
          graphBoost = [] := by
        unfold recallSearch
        rw [if_neg hq, if_pos hbs]
      rw [he]
      exact ⟨fun h hh => absurd hh (List.not_mem_nil h), List.Pairwise.nil,
        by simp⟩
    · have he : recallSearch idf qtype graph blocks query limit activeOnly
          graphBoost = (List.insertionSort hitGe
            (if (graphBoost || graphOverride qtype) &&
                !(recallScored idf qtype
                  (if activeOnly then get_active blocks else blocks)
                  (expand_query (tokenize query))).isEmpty then
              graphApply graph
                (if activeOnly then get_active blocks else blocks)
                (recallScored idf qtype
                  (if activeOnly then get_active blocks else blocks)
                  (expand_query (tokenize query)))
            else recallScored idf qtype
              (if activeOnly then get_active blocks else blocks)
              (expand_query (tokenize query)))).take limit := by
        unfold recallSearch
        rw [if_neg hq, if_neg hbs]
      rw [he]
      refine sorted_take_props _ limit ?_
      split <;> split
      all_goals
        first
        | exact graphApply_nonneg graph _ _
            (recallScored_nonneg idf hidf qtype _ _)
        | exact recallScored_nonneg idf hidf qtype _ _

/-- The constant idf function 1 used for concrete evaluations (the real
`idf` is a positive logarithm; only nonnegativity matters to the claims). -/
def idfOne : Nat → Nat → Frac := fun _ _ => 1

/-- First of two identical-content blocks used in the C8 counterexample. -/
def bTie1 : Block :=
  ⟨"x1".data, [("Statement", "apple".data)], [], none, "", "",
    "decisions/DECISIONS.md", 1⟩

/-- Second of two identical-content blocks used in the C8 counterexample. -/
def bTie2 : Block :=
  ⟨"x2".data, [("Statement", "apple".data)], [], none, "", "",
    "decisions/DECISIONS.md", 5⟩

/-- The recall run on the two tied blocks. -/
def tieRun : List Hit :=
  recallSearch idfOne .singlehop (fun _ => []) [bTie1, bTie2] "apple".data
    10 false false

instance : DecidableEq Frac := fun a b =>
  if h1 : a.num = b.num then
    if h2 : a.den = b.den then
      isTrue (by cases a; cases b; cases h1; cases h2; rfl)
    else isFalse (fun he => h2 (by rw [he]))
  else isFalse (fun he => h1 (by rw [he]))

/-- Witness for the amended C8 theorem at a concrete corpus and query. -/
theorem recallSearch_nonneg_sorted_limited_witness :
    (∀ h ∈ recallSearch idfOne .singlehop (fun _ => []) [bTie1, bTie2]
      "apple".data 10 false false, 0 ≤ h.score.toRat) ∧
    List.Pairwise (fun a b : Hit => b.score.toRat ≤ a.score.toRat)
      (recallSearch idfOne .singlehop (fun _ => []) [bTie1, bTie2]
        "apple".data 10 false false) ∧
    (recallSearch idfOne .singlehop (fun _ => []) [bTie1, bTie2]
      "apple".data 10 false false).length ≤ 10 :=
  recallSearch_nonneg_sorted_limited idfOne
    (fun _ _ => by
      show (0 : ℚ) ≤ (1 : Frac).toRat
      rw [Frac.toRat_one]
      norm_num)
    .singlehop (fun _ => []) [bTie1, bTie2] "apple".data 10 false false

/-- C8 counterexample. Two distinct blocks with identical searchable
content both score 1.3357 for the query `apple`, so the returned list
carries a tie and is not strictly sorted by score descending. -/
theorem recall_ties_not_strictly_sorted :
    (tieRun.map fun h => (h.id, h.score)) =
      [("x1".data, (13357 : Frac)/10000), ("x2".data, (13357 : Frac)/10000)] ∧
    ¬ List.Pairwise (fun a b : Hit => b.score.toRat < a.score.toRat) tieRun := by
  constructor
  · decide
  · intro hp
    have hfrac : List.Pairwise (fun a b : Hit => b.score < a.score) tieRun :=
      hp.imp (fun hlt => (Frac.lt_iff _ _).mpr hlt)
    revert hfrac
    decide

/-- The cross-reference chain a — b — c used in the C6 counterexample. -/
def g6 : List Char → List (List Char) := fun i =>
  if i = "a".data then ["b".data]
  else if i = "b".data then ["a".data, "c".data]
  else if i = "c".data then ["b".data] else []

/-- The single BM25-ranked seed hit (id `a`, score 1) for the C6
counterexample. -/
def seedA : Hit := ⟨"a".data, "unknown", 1, [], "f", 0, "", false⟩

/-- C6 counterexample. With the chain a — b — c and one ranked hit `a` of
score 1, the hop-0 pass gives `b` score 0.3, and the hop-1 pass gives the
two-hops-away node `c` score `0.3 · 0.099 = 0.0297` — not the
`0.3 · 0.1 = 0.03` the claimed `[0.3, 0.1]` schedule would produce. -/
theorem graph_hop1_decay_counterexample :
    (dictGetQ (graphNeighborScores g6 [seedA]) "c".data).toRat = 297/10000 ∧
    (297/10000 : ℚ) ≠ (3/10 : ℚ) * (1/10) := by
  constructor
  · rw [show dictGetQ (graphNeighborScores g6 [seedA]) "c".data =
      (⟨297, 10000, by norm_num⟩ : Frac) from rfl, Frac.toRat_mk]
    norm_num
  · norm_num

end MemOS

